import Mathlib

/-!
# MS2130 firmware patcher (`ms2130_patch.c`)

A shallow embedding of the patcher and the properties of its pipeline
"read, verify, gate, patch, re-checksum, write".

Memory model.  The firmware buffer `fw` is a `List Byte` whose length is the
file length.  A C pointer into the buffer (`fw`, `fw + CODE_OFFSET`) is a pair
of the buffer and a base index.  Every load and store carries its bounds check:
an access at an index outside the buffer has no defined behaviour in C and
makes the embedded function return `none`.

Machine integers are natural numbers; each conversion to a narrower unsigned
type is an explicit reduction (`% 2 ^ 32`, `&&& 0xffff`, `% 65536`, `Fin.ofNat` for a byte).
-/

namespace MS2130

/-- A `uint8_t`. -/
abbrev Byte := Fin 256

/-- The macro `CODE_OFFSET`. -/
def CODE_OFFSET : Nat := 0x30

/-- The macro `CODE_CHECKSUM`. -/
def CODE_CHECKSUM : Nat := 0x09db

/-- Load `p[i]` for the pointer `p = mem + base`. -/
def load (mem : List Byte) (base i : Nat) : Option Byte :=
  mem[base + i]?

/-- Store `p[i] = v` for the pointer `p = mem + base`; the value is converted to `uint8_t`. -/
def store (mem : List Byte) (base i : Nat) (v : Nat) : Option (List Byte) :=
  if base + i < mem.length then some (mem.set (base + i) (Fin.ofNat v)) else none

/-- The function `patch_firmware(code)`, with `code = mem + base`: thirteen byte stores,
in the order of the source. -/
def patch_firmware (mem : List Byte) (code : Nat) : Option (List Byte) := do
  let mem ← store mem code 0x9604 0xbf
  let mem ← store mem code 0x9605 0x44
  let mem ← store mem code 0x960d 0xbf
  let mem ← store mem code 0x960e 0x44
  let mem ← store mem code 0xbe90 0x00
  let mem ← store mem code 0xbe91 0x06
  let mem ← store mem code 0xbee8 0x80
  let mem ← store mem code 0x937e 0x00
  let mem ← store mem code 0x937f 0x7e
  let mem ← store mem code 0x9380 0x10
  let mem ← store mem code 0x9399 0x00
  let mem ← store mem code 0x939a 0x7e
  store mem code 0x939b 0x10

/-- The loop of `calculate_header_checksum`: `n` iterations are left, the loop variable is `i`,
the `uint32_t` accumulator is `csum`. -/
def header_loop (mem : List Byte) (data : Nat) : Nat → Nat → Nat → Option Nat
  | 0, _, csum => some csum
  | n + 1, i, csum =>
    if i < 0x0c ∨ i > 0x0f then
      match load mem data i with
      | none => none
      | some b => header_loop mem data n (i + 1) ((csum + b.val) % 2 ^ 32)
    else
      header_loop mem data n (i + 1) csum

/-- The function `calculate_header_checksum(data, len)`, with `data = mem + base`:
`for (i = 0x02; i < len; i++)` runs `len - 2` times. -/
def calculate_header_checksum (mem : List Byte) (data len : Nat) : Option Nat :=
  (header_loop mem data (len - 0x02) 0x02 0).map (fun csum => csum &&& 0xffff)

/-- The loop of `calculate_code_checksum`: `n` iterations are left, the loop variable is `i`,
the `uint32_t` accumulator is `csum`. -/
def code_loop (mem : List Byte) (data : Nat) : Nat → Nat → Nat → Option Nat
  | 0, _, csum => some csum
  | n + 1, i, csum =>
    match load mem data i with
    | none => none
    | some b => code_loop mem data n (i + 1) ((csum + b.val) % 2 ^ 32)

/-- The function `calculate_code_checksum(data, len)`, with `data = mem + base`:
`for (i = 0; i < len; i++)` runs `len` times. -/
def calculate_code_checksum (mem : List Byte) (data len : Nat) : Option Nat :=
  (code_loop mem data len 0 0).map (fun csum => csum &&& 0xffff)

/-- The expression `(hi << 8) | lo` assigned to a `uint16_t`. -/
def be16 (hi lo : Byte) : Nat :=
  ((hi.val <<< 8) ||| lo.val) % 65536

/-- The values `main` computes and prints before the gate (lines 123 to 140). -/
structure Report where
  code_len : Nat
  calc_header_csum : Nat
  orig_header_csum : Nat
  calc_code_csum : Nat
  orig_code_csum : Nat
  deriving DecidableEq

/-- Line 123 of `main`: `code_len = (fw[0x02] << 8) | fw[0x03]`. -/
def code_len (fw : List Byte) : Option Nat := do
  let b2 ← load fw 0 0x02
  let b3 ← load fw 0 0x03
  pure (be16 b2 b3)

/-- Lines 123 to 140 of `main`: read the code length, compute both checksums and read the
two stored ones.  Nothing is written to the buffer. -/
def inspect (fw : List Byte) : Option Report := do
  let code_len ← code_len fw
  let calc_header_csum ← calculate_header_checksum fw 0 CODE_OFFSET
  let h0 ← load fw 0 (CODE_OFFSET + code_len + 0)
  let h1 ← load fw 0 (CODE_OFFSET + code_len + 1)
  let orig_header_csum := be16 h0 h1
  let calc_code_csum ← calculate_code_checksum fw CODE_OFFSET code_len
  let c0 ← load fw 0 (CODE_OFFSET + code_len + 2)
  let c1 ← load fw 0 (CODE_OFFSET + code_len + 3)
  let orig_code_csum := be16 c0 c1
  pure ⟨code_len, calc_header_csum, orig_header_csum, calc_code_csum, orig_code_csum⟩

/-- How the in-memory part of `main` ends. -/
inductive Verdict where
  /-- The gate failed (`goto err`): the buffer as it is then; nothing is written out. -/
  | rejected (fw : List Byte)
  /-- The buffer handed to `fwrite` for `./patched.bin`. -/
  | patched (fw : List Byte)
  deriving DecidableEq

/-- Lines 123 to 152 of `main` on the buffer read from the input file: inspection, the
checksum gate, `patch_firmware`, and the rewrite of the stored code checksum. -/
def pipeline (fw : List Byte) : Option Verdict := do
  let r ← inspect fw
  if CODE_CHECKSUM ≠ r.calc_code_csum then
    pure (Verdict.rejected fw)
  else
    let fw ← patch_firmware fw CODE_OFFSET
    let calc_code_csum ← calculate_code_checksum fw CODE_OFFSET r.code_len
    let fw ← store fw 0 (CODE_OFFSET + r.code_len + 2) (calc_code_csum >>> 8)
    let fw ← store fw 0 (CODE_OFFSET + r.code_len + 3) (calc_code_csum &&& 0xff)
    pure (Verdict.patched fw)

/-- What `main` meets outside its buffer. -/
structure World where
  /-- Contents of `./4k2.bin`; `none` when `fopen` fails. -/
  file : Option (List Byte)
  /-- Whether `malloc` returns a buffer. -/
  mallocOk : Bool
  /-- Whether `fread` delivers all `file_len` bytes. -/
  freadOk : Bool
  /-- Whether `./patched.bin` can be opened for writing. -/
  outOk : Bool

/-- What `main` leaves behind. -/
structure Final where
  /-- The exit status. -/
  status : Int
  /-- Contents written to `./patched.bin`, if the file is written. -/
  output : Option (List Byte)
  deriving DecidableEq

/-- The function `main`.  `none` stands for an execution that accesses memory it must not
(an index outside the buffer, a null buffer, a null stream) or reads an object that was
never initialised.  When `fopen` fails, `goto err` jumps over the initialisation of `fw`
(`uint8_t *fw = malloc(file_len)`), and `if (fw) free(fw)` after `err:` reads that
indeterminate pointer: `none`.  On every other path that reaches `err:` both `fp` and `fw`
are initialised (`fp` is the open stream or `NULL`, `fw` is the allocated buffer), the
release of the stream and the buffer succeeds, and `return 0` follows. -/
def main (w : World) : Option Final :=
  match w.file with
  | none => none
  | some bytes =>
    if w.mallocOk then
      if w.freadOk then
        match pipeline bytes with
        | none => none
        | some (Verdict.rejected _) => some ⟨0, none⟩
        | some (Verdict.patched out) => if w.outOk then some ⟨0, some out⟩ else none
      else some ⟨0, none⟩
    else none

/-! ## Reference definitions and closed forms -/

/-- The value of `data[i]` as a number (0 beyond the end of `data`). -/
def byteAt (data : List Byte) (i : Nat) : Nat :=
  (data.getD i 0).val

/-- Reference definition of the code checksum, in the words of the specification:
the sum of `data[i]` for `0 ≤ i < len`, modulo 65536. -/
def code_checksum_spec (data : List Byte) (len : Nat) : Nat :=
  ((List.range len).map (byteAt data)).sum % 65536

/-- Reference definition of the header checksum, in the words of the specification:
the sum of `data[i]` for `2 ≤ i < len` with `i` outside `[0x0c, 0x10)`, modulo 65536. -/
def header_checksum_spec (data : List Byte) (len : Nat) : Nat :=
  (((List.range len).filter (fun i => 2 ≤ i ∧ ¬ (0x0c ≤ i ∧ i < 0x10))).map (byteAt data)).sum
    % 65536

/-- The offsets `patch_firmware` writes, each with the byte it writes, in source order. -/
def patch_table : List (Nat × Byte) :=
  [(0x9604, 0xbf), (0x9605, 0x44), (0x960d, 0xbf), (0x960e, 0x44), (0xbe90, 0x00),
   (0xbe91, 0x06), (0xbee8, 0x80), (0x937e, 0x00), (0x937f, 0x7e), (0x9380, 0x10),
   (0x9399, 0x00), (0x939a, 0x7e), (0x939b, 0x10)]

/-- The offsets `patch_firmware` writes. -/
def patch_offsets : List Nat :=
  patch_table.map Prod.fst

/-- The buffer after the stores of `patch_table` at `base`, bounds not checked. -/
def apply_table (mem : List Byte) (base : Nat) : List (Nat × Byte) → List Byte
  | [] => mem
  | (off, b) :: rest => apply_table (mem.set (base + off) b) base rest

/-- The indices `calculate_header_checksum` adds: outside `[0x0c, 0x0f]`. -/
def header_index (i : Nat) : Bool :=
  decide (i < 0x0c ∨ i > 0x0f)

/-- The buffer `main` hands to `fwrite` when the gate passes and every store is in bounds:
the patch table applied at `CODE_OFFSET`, then the two bytes of the new code checksum. -/
def output_image (fw : List Byte) (len : Nat) : List Byte :=
  ((apply_table fw CODE_OFFSET patch_table).set (CODE_OFFSET + len + 2)
      (Fin.ofNat (code_checksum_spec ((apply_table fw CODE_OFFSET patch_table).drop CODE_OFFSET)
        len >>> 8))).set (CODE_OFFSET + len + 3)
    (Fin.ofNat (code_checksum_spec ((apply_table fw CODE_OFFSET patch_table).drop CODE_OFFSET)
      len &&& 0xff))

/-- The loop of `calculate_code_checksum` computed with unbounded integers: the accumulator
is never reduced. -/
def code_loop_exact (mem : List Byte) (data : Nat) : Nat → Nat → Nat → Option Nat
  | 0, _, csum => some csum
  | n + 1, i, csum =>
    match load mem data i with
    | none => none
    | some b => code_loop_exact mem data n (i + 1) (csum + b.val)

/-- The loop of `calculate_header_checksum` computed with unbounded integers: the
accumulator is never reduced. -/
def header_loop_exact (mem : List Byte) (data : Nat) : Nat → Nat → Nat → Option Nat
  | 0, _, csum => some csum
  | n + 1, i, csum =>
    if i < 0x0c ∨ i > 0x0f then
      match load mem data i with
      | none => none
      | some b => header_loop_exact mem data n (i + 1) (csum + b.val)
    else
      header_loop_exact mem data n (i + 1) csum

/-- The sum of `data[i]` for `0 ≤ i < len`, not reduced. -/
def byte_sum (data : List Byte) (len : Nat) : Nat :=
  ((List.range len).map (byteAt data)).sum

/-- The stores of a table of edits at `base`, each with its bounds check, in the order of
the table. -/
def apply_stores (mem : List Byte) (base : Nat) : List (Nat × Byte) → Option (List Byte)
  | [] => some mem
  | (off, b) :: rest =>
    match store mem base off b.val with
    | none => none
    | some m => apply_stores m base rest

/-- The six edits of `patch_firmware`, in source order. -/
def patch_edits : List (List (Nat × Byte)) :=
  [[(0x9604, 0xbf), (0x9605, 0x44)], [(0x960d, 0xbf), (0x960e, 0x44)],
   [(0xbe90, 0x00), (0xbe91, 0x06)], [(0xbee8, 0x80)],
   [(0x937e, 0x00), (0x937f, 0x7e), (0x9380, 0x10)],
   [(0x9399, 0x00), (0x939a, 0x7e), (0x939b, 0x10)]]

/-- The sum of the bytes the code region at `base` holds at the patched offsets. -/
def patched_bytes_sum (mem : List Byte) (base : Nat) : Nat :=
  (patch_offsets.map (byteAt (mem.drop base))).sum

/-- The sum of the thirteen replacement bytes. -/
def replacement_sum : Nat :=
  (patch_table.map (fun e => e.2.val)).sum

/-! ## Sample images -/

/-- A header of `CODE_OFFSET` bytes whose code-length field holds `hi`, `lo`. -/
def sample_header (hi lo : Byte) : List Byte :=
  [0, 0, hi, lo] ++ List.replicate 44 0

/-- A code region of `n + 10` bytes whose bytes add up to `CODE_CHECKSUM`. -/
def sample_code (n : Nat) : List Byte :=
  List.replicate 9 0xff ++ [0xe4] ++ List.replicate n 0

/-- An image with the given code-length field, code region `sample_code n` and the bytes
`tail` after it. -/
def sample_fw (hi lo : Byte) (n : Nat) (tail : List Byte) : List Byte :=
  sample_header hi lo ++ sample_code n ++ tail

/-- An image of the supported layout: code length `0xbee9`, the code adding up to
`CODE_CHECKSUM`, stored checksums zero. -/
def fw_good : List Byte :=
  sample_fw 0xbe 0xe9 48863 [0, 0, 0, 0]

/-- The image `fw_good` with other stored checksums. -/
def fw_good_alt : List Byte :=
  sample_fw 0xbe 0xe9 48863 [1, 2, 3, 4]

/-- An image whose code passes the gate with a code length of 10; the file goes on for
another 48900 bytes. -/
def fw_short_code : List Byte :=
  sample_fw 0x00 0x0a 0 (List.replicate 48900 0)

/-- An image of 62 bytes with code length 10 whose code adds up to 0. -/
def fw_other_build : List Byte :=
  sample_header 0x00 0x0a ++ List.replicate 10 0 ++ [0, 0, 0, 0]

/-- A file of four zero bytes. -/
def fw_truncated : List Byte :=
  [0, 0, 0, 0]

/-- A code region of `0xbee9` bytes, zero except for its first seven bytes, before any
replacement byte is in place. -/
def code_blank : List Byte :=
  List.replicate 6 0xff ++ [0x39] ++ List.replicate 48866 0

/-- The code region `code_blank` with the thirteen replacement bytes already in place; its
bytes add up to `CODE_CHECKSUM`. -/
def code_prepatched : List Byte :=
  apply_table code_blank 0 patch_table

/-! ## Loads and stores -/

theorem store_eq_some {mem : List Byte} {base i v : Nat} (h : base + i < mem.length) :
    store mem base i v = some (mem.set (base + i) (Fin.ofNat v)) := by
  simp [store, h]

theorem store_eq_none {mem : List Byte} {base i v : Nat} (h : mem.length ≤ base + i) :
    store mem base i v = none := by
  simp [store, Nat.not_lt.mpr h]

theorem store_some_iff {mem out : List Byte} {base i v : Nat} :
    store mem base i v = some out ↔
      base + i < mem.length ∧ out = mem.set (base + i) (Fin.ofNat v) := by
  unfold store
  split <;> simp_all [eq_comm]

theorem patch_firmware_some {mem : List Byte} {code : Nat} (h : code + 0xbee8 < mem.length) :
    patch_firmware mem code = some (apply_table mem code patch_table) := by
  have h1 : code + 0x9604 < mem.length := by omega
  have h2 : code + 0x9605 < mem.length := by omega
  have h3 : code + 0x960d < mem.length := by omega
  have h4 : code + 0x960e < mem.length := by omega
  have h5 : code + 0xbe90 < mem.length := by omega
  have h6 : code + 0xbe91 < mem.length := by omega
  have h8 : code + 0x937e < mem.length := by omega
  have h9 : code + 0x937f < mem.length := by omega
  have h10 : code + 0x9380 < mem.length := by omega
  have h11 : code + 0x9399 < mem.length := by omega
  have h12 : code + 0x939a < mem.length := by omega
  have h13 : code + 0x939b < mem.length := by omega
  simp [patch_firmware, store, List.length_set, apply_table, patch_table, h, h1, h2, h3, h4, h5,
    h6, h8, h9, h10, h11, h12, h13]
  rfl

theorem patch_firmware_none {mem : List Byte} {code : Nat} (h : mem.length ≤ code + 0xbee8) :
    patch_firmware mem code = none := by
  cases hp : patch_firmware mem code with
  | none => rfl
  | some out =>
    exfalso
    simp only [patch_firmware, Option.bind_eq_bind, Option.bind_eq_some, store_some_iff] at hp
    obtain ⟨m1, ⟨-, e1⟩, m2, ⟨-, e2⟩, m3, ⟨-, e3⟩, m4, ⟨-, e4⟩, m5, ⟨-, e5⟩, m6, ⟨-, e6⟩,
      m7, ⟨b7, -⟩, -⟩ := hp
    subst e1 e2 e3 e4 e5 e6
    simp only [List.length_set] at b7
    omega

/-! ## The checksum loops -/

theorem load_eq_some_of_lt {mem : List Byte} {base i : Nat} (h : base + i < mem.length) :
    load mem base i = some (mem.get ⟨base + i, h⟩) := by
  simp [load, List.getElem?_eq_getElem h]

theorem load_eq_none {mem : List Byte} {base i : Nat} (h : mem.length ≤ base + i) :
    load mem base i = none := by
  simp [load, h]

theorem byteAt_drop (mem : List Byte) (base i : Nat) :
    byteAt (mem.drop base) i = (mem.getD (base + i) 0).val := by
  simp [byteAt, List.getD_eq_getElem?_getD, List.getElem?_drop]

theorem load_some_byteAt {mem : List Byte} {base i : Nat} {b : Byte}
    (h : load mem base i = some b) : byteAt (mem.drop base) i = b.val := by
  simp only [load] at h
  simp [byteAt_drop, List.getD_eq_getElem?_getD, h]

/-- The code loop only looks at the bytes `mem[data + k]` with `i ≤ k < i + n`. -/
theorem code_loop_congr {m1 m2 : List Byte} {data : Nat} :
    ∀ (n i csum : Nat), (∀ k, i ≤ k → k < i + n → m1[data + k]? = m2[data + k]?) →
      code_loop m1 data n i csum = code_loop m2 data n i csum
  | 0, _, _, _ => rfl
  | n + 1, i, csum, h => by
    have h0 : load m1 data i = load m2 data i := h i (Nat.le_refl _) (by omega)
    simp only [code_loop, h0]
    cases load m2 data i with
    | none => rfl
    | some b => exact code_loop_congr n (i + 1) _ (fun k hk1 hk2 => h k (by omega) (by omega))

/-- With every index in bounds the code loop returns, and it has added the bytes it passed. -/
theorem code_loop_eq {mem : List Byte} {data : Nat} :
    ∀ (n i csum : Nat), data + i + n ≤ mem.length → csum < 2 ^ 32 →
      code_loop mem data n i csum =
        some ((csum + ((List.range' i n).map (byteAt (mem.drop data))).sum) % 2 ^ 32)
  | 0, _, csum, _, hc => by
    have e : csum % 2 ^ 32 = csum := Nat.mod_eq_of_lt hc
    simp only [code_loop, List.range'_zero, List.map_nil, List.sum_nil, Nat.add_zero, e]
  | n + 1, i, csum, h, _ => by
    have hi : data + i < mem.length := by omega
    have hl := load_eq_some_of_lt hi
    simp only [code_loop, hl]
    rw [code_loop_eq n (i + 1) _ (by omega) (Nat.mod_lt _ (by decide))]
    simp only [List.range'_succ, List.map_cons, List.sum_cons, load_some_byteAt hl]
    congr 1
    omega

/-- When the code loop returns, every index it was to visit is in bounds. -/
theorem code_loop_bound {mem : List Byte} {data : Nat} :
    ∀ (n i csum r : Nat), code_loop mem data n i csum = some r → n = 0 ∨ data + i + n ≤ mem.length
  | 0, _, _, _, _ => Or.inl rfl
  | n + 1, i, csum, r, h => by
    right
    simp only [code_loop] at h
    cases hl : load mem data i with
    | none => simp [hl] at h
    | some b =>
      simp only [hl] at h
      have hi : data + i < mem.length := by
        by_contra hc
        rw [load_eq_none (Nat.le_of_not_lt hc)] at hl
        cases hl
      rcases code_loop_bound n (i + 1) _ r h with h0 | h1
      · omega
      · omega

theorem and_ffff_mod (x : Nat) : (x % 2 ^ 32) &&& 0xffff = x % 65536 := by
  have h := Nat.and_pow_two_sub_one_eq_mod (x % 2 ^ 32) 16
  have e : (2 : Nat) ^ 16 - 1 = 0xffff := by decide
  rw [e] at h
  rw [h]
  omega

theorem calculate_code_checksum_eq {mem : List Byte} {data len : Nat}
    (h : data + len ≤ mem.length) :
    calculate_code_checksum mem data len = some (code_checksum_spec (mem.drop data) len) := by
  unfold calculate_code_checksum code_checksum_spec
  rw [code_loop_eq len 0 0 (by omega) (by decide)]
  simp only [Option.map_some', Nat.zero_add, and_ffff_mod, List.range_eq_range']

theorem calculate_code_checksum_bound {mem : List Byte} {data len r : Nat}
    (h : calculate_code_checksum mem data len = some r) : len = 0 ∨ data + len ≤ mem.length := by
  unfold calculate_code_checksum at h
  cases hl : code_loop mem data len 0 0 with
  | none => simp [hl] at h
  | some c =>
    rcases code_loop_bound len 0 0 c hl with h0 | h1
    · exact Or.inl h0
    · right; omega

theorem calculate_code_checksum_congr {m1 m2 : List Byte} {data len : Nat}
    (h : ∀ k, k < len → m1[data + k]? = m2[data + k]?) :
    calculate_code_checksum m1 data len = calculate_code_checksum m2 data len := by
  unfold calculate_code_checksum
  rw [code_loop_congr len 0 0 (fun k _ hk => h k (by omega))]

/-- The header loop only looks at the bytes `mem[data + k]` with `i ≤ k < i + n` and `k`
outside `[0x0c, 0x0f]`. -/
theorem header_loop_congr {m1 m2 : List Byte} {data : Nat} :
    ∀ (n i csum : Nat),
      (∀ k, i ≤ k → k < i + n → (k < 0x0c ∨ k > 0x0f) → m1[data + k]? = m2[data + k]?) →
      header_loop m1 data n i csum = header_loop m2 data n i csum
  | 0, _, _, _ => rfl
  | n + 1, i, csum, h => by
    have ih : ∀ c, header_loop m1 data n (i + 1) c = header_loop m2 data n (i + 1) c :=
      fun c => header_loop_congr n (i + 1) c (fun k hk1 hk2 hk3 => h k (by omega) (by omega) hk3)
    simp only [header_loop]
    by_cases hc : i < 0x0c ∨ i > 0x0f
    · have h0 : load m1 data i = load m2 data i := h i (Nat.le_refl _) (by omega) hc
      simp only [hc, if_true, h0]
      cases load m2 data i with
      | none => rfl
      | some b => exact ih _
    · simp only [hc, if_false]
      exact ih _

/-- With every index in bounds the header loop returns, and it has added the bytes at the
indices outside `[0x0c, 0x0f]`. -/
theorem header_loop_eq {mem : List Byte} {data : Nat} :
    ∀ (n i csum : Nat), data + i + n ≤ mem.length → csum < 2 ^ 32 →
      header_loop mem data n i csum =
        some ((csum + (((List.range' i n).filter header_index).map
          (byteAt (mem.drop data))).sum) % 2 ^ 32)
  | 0, _, csum, _, hc => by
    have e : csum % 2 ^ 32 = csum := Nat.mod_eq_of_lt hc
    simp only [header_loop, List.range'_zero, List.filter_nil, List.map_nil, List.sum_nil,
      Nat.add_zero, e]
  | n + 1, i, csum, h, hcs => by
    have hi : data + i < mem.length := by omega
    have hl := load_eq_some_of_lt hi
    simp only [header_loop]
    by_cases hc : i < 0x0c ∨ i > 0x0f
    · have hd : header_index i = true := by simp [header_index, hc]
      simp only [hc, if_true, hl]
      rw [header_loop_eq n (i + 1) _ (by omega) (Nat.mod_lt _ (by decide))]
      simp only [List.range'_succ, List.filter_cons, hd, if_true, List.map_cons, List.sum_cons,
        load_some_byteAt hl]
      congr 1
      omega
    · have hd : header_index i = false := by simp [header_index, hc]
      simp only [hc, if_false]
      rw [header_loop_eq n (i + 1) _ (by omega) hcs]
      simp [List.range'_succ, List.filter_cons, hd]

theorem header_indices (len : Nat) :
    (List.range len).filter (fun i => 2 ≤ i ∧ ¬ (0x0c ≤ i ∧ i < 0x10)) =
      (List.range' 2 (len - 2)).filter header_index := by
  rcases Nat.lt_or_ge len 2 with h | h
  · have h0 : len - 2 = 0 := by omega
    rw [h0, List.range'_zero, List.filter_nil, List.filter_eq_nil_iff]
    intro a ha
    have := List.mem_range.mp ha
    simp only [decide_eq_true_eq]
    omega
  · have e : List.range len = List.range' 0 2 ++ List.range' 2 (len - 2) := by
      rw [List.range_eq_range']
      have := List.range'_append 0 2 (len - 2) 1
      simp only [Nat.mul_one, Nat.zero_add] at this
      rw [this]
      congr 1
      omega
    rw [e, List.filter_append]
    have e1 : (List.range' 0 2).filter (fun i => 2 ≤ i ∧ ¬ (0x0c ≤ i ∧ i < 0x10)) = [] := by
      decide
    rw [e1, List.nil_append]
    apply List.filter_congr
    intro a ha
    have := (List.mem_range'_1.mp ha).1
    simp only [header_index, decide_eq_decide]
    omega

theorem calculate_header_checksum_eq {mem : List Byte} {data len : Nat}
    (h : data + len ≤ mem.length) :
    calculate_header_checksum mem data len = some (header_checksum_spec (mem.drop data) len) := by
  unfold calculate_header_checksum header_checksum_spec
  rcases Nat.lt_or_ge len 2 with h2 | h2
  · have h0 : len - 2 = 0 := by omega
    rw [header_indices, h0]
    simp [header_loop]
  · rw [header_loop_eq (len - 2) 2 0 (by omega) (by decide)]
    simp only [Option.map_some', Nat.zero_add, and_ffff_mod, header_indices]

theorem calculate_header_checksum_congr {m1 m2 : List Byte} {data len : Nat}
    (h : ∀ k, 2 ≤ k → k < len → ¬ (0x0c ≤ k ∧ k < 0x10) → m1[data + k]? = m2[data + k]?) :
    calculate_header_checksum m1 data len = calculate_header_checksum m2 data len := by
  unfold calculate_header_checksum
  rw [header_loop_congr (len - 2) 2 0 (fun k hk1 hk2 hk3 => h k hk1 (by omega) (by omega))]

/-! ## Inspection and the gate -/

theorem load_some_lt {mem : List Byte} {base i : Nat} {b : Byte}
    (h : load mem base i = some b) : base + i < mem.length := by
  by_contra hc
  rw [load_eq_none (Nat.le_of_not_lt hc)] at h
  cases h

theorem code_len_some_length {fw : List Byte} {len : Nat} (h : code_len fw = some len) :
    4 ≤ fw.length ∧ len < 65536 := by
  simp only [code_len, Option.bind_eq_bind, Option.bind_eq_some, Option.pure_def,
    Option.some.injEq] at h
  obtain ⟨b2, -, b3, h3, e⟩ := h
  have := load_some_lt h3
  subst e
  refine ⟨by omega, ?_⟩
  unfold be16
  omega

/-- What a successful inspection has read. -/
theorem inspect_some {fw : List Byte} {r : Report} (h : inspect fw = some r) :
    code_len fw = some r.code_len ∧ CODE_OFFSET + r.code_len + 4 ≤ fw.length ∧
      calculate_header_checksum fw 0 CODE_OFFSET = some r.calc_header_csum ∧
      calculate_code_checksum fw CODE_OFFSET r.code_len = some r.calc_code_csum := by
  simp only [inspect, Option.bind_eq_bind, Option.bind_eq_some, Option.pure_def,
    Option.some.injEq] at h
  obtain ⟨len, hlen, hc, hhc, h0, -, h1, -, cc, hcc, c0, -, c1, hc1, e⟩ := h
  have hb := load_some_lt hc1
  subst e
  refine ⟨hlen, ?_, hhc, hcc⟩
  show CODE_OFFSET + len + 4 ≤ fw.length
  omega

/-- The stored checksums a successful inspection has read. -/
theorem inspect_some_stored {fw : List Byte} {r : Report} (h : inspect fw = some r) :
    ∃ h0 h1 c0 c1, load fw 0 (CODE_OFFSET + r.code_len + 0) = some h0 ∧
      load fw 0 (CODE_OFFSET + r.code_len + 1) = some h1 ∧
      load fw 0 (CODE_OFFSET + r.code_len + 2) = some c0 ∧
      load fw 0 (CODE_OFFSET + r.code_len + 3) = some c1 ∧
      r.orig_header_csum = be16 h0 h1 ∧ r.orig_code_csum = be16 c0 c1 := by
  simp only [inspect, Option.bind_eq_bind, Option.bind_eq_some, Option.pure_def,
    Option.some.injEq] at h
  obtain ⟨len, -, hc, -, h0, l0, h1, l1, cc, -, c0, l2, c1, l3, e⟩ := h
  subst e
  exact ⟨h0, h1, c0, c1, l0, l1, l2, l3, rfl, rfl⟩

/-- Inspection succeeds on a buffer that holds the header, the code region and the four
checksum bytes. -/
theorem inspect_of_length {fw : List Byte} {len : Nat} (hlen : code_len fw = some len)
    (hsize : CODE_OFFSET + len + 4 ≤ fw.length) :
    ∃ r, inspect fw = some r ∧ r.code_len = len ∧
      r.calc_header_csum = header_checksum_spec fw CODE_OFFSET ∧
      r.calc_code_csum = code_checksum_spec (fw.drop CODE_OFFSET) len := by
  have hh : calculate_header_checksum fw 0 CODE_OFFSET =
      some (header_checksum_spec fw CODE_OFFSET) := by
    have := @calculate_header_checksum_eq fw 0 CODE_OFFSET (by omega)
    simpa using this
  have hc := @calculate_code_checksum_eq fw CODE_OFFSET len (by omega)
  have l0 := @load_eq_some_of_lt fw 0 (CODE_OFFSET + len + 0) (by omega)
  have l1 := @load_eq_some_of_lt fw 0 (CODE_OFFSET + len + 1) (by omega)
  have l2 := @load_eq_some_of_lt fw 0 (CODE_OFFSET + len + 2) (by omega)
  have l3 := @load_eq_some_of_lt fw 0 (CODE_OFFSET + len + 3) (by omega)
  refine ⟨⟨len, header_checksum_spec fw CODE_OFFSET, be16 (fw.get ⟨0 + (CODE_OFFSET + len + 0),
    by omega⟩) (fw.get ⟨0 + (CODE_OFFSET + len + 1), by omega⟩),
    code_checksum_spec (fw.drop CODE_OFFSET) len, be16 (fw.get ⟨0 + (CODE_OFFSET + len + 2),
    by omega⟩) (fw.get ⟨0 + (CODE_OFFSET + len + 3), by omega⟩)⟩, ?_, rfl, rfl, rfl⟩
  simp only [inspect, hlen, hh, hc, l0, l1, l2, l3, Option.bind_eq_bind, Option.some_bind,
    Option.pure_def]

/-- A buffer too short for its own code length cannot be inspected. -/
theorem inspect_none_of_short {fw : List Byte}
    (h : ∀ len, code_len fw = some len → fw.length < CODE_OFFSET + len + 4) :
    inspect fw = none := by
  cases hi : inspect fw with
  | none => rfl
  | some r =>
    obtain ⟨h1, h2, -⟩ := inspect_some hi
    have := h _ h1
    omega

/-! ## The patched image -/

theorem apply_table_length (base : Nat) :
    ∀ (t : List (Nat × Byte)) (mem : List Byte), (apply_table mem base t).length = mem.length
  | [], _ => rfl
  | (off, b) :: rest, mem => by
    simp only [apply_table]
    rw [apply_table_length base rest, List.length_set]

/-- Outside the offsets of the table nothing changes. -/
theorem apply_table_get_other (base : Nat) :
    ∀ (t : List (Nat × Byte)) (mem : List Byte) (j : Nat),
      (∀ e ∈ t, j ≠ base + e.1) → (apply_table mem base t)[j]? = mem[j]?
  | [], _, _, _ => rfl
  | (off, b) :: rest, mem, j, h => by
    simp only [apply_table]
    rw [apply_table_get_other base rest _ j (fun e he => h e (List.mem_cons_of_mem _ he))]
    have hj : base + off ≠ j := fun e => h (off, b) (List.mem_cons_self _ _) e.symm
    exact List.getElem?_set_ne hj

/-- At an offset of a table without repeated offsets the byte of the table is found. -/
theorem apply_table_get_entry (base : Nat) :
    ∀ (t : List (Nat × Byte)) (mem : List Byte) (off : Nat) (b : Byte),
      (t.map Prod.fst).Nodup → (off, b) ∈ t → base + off < mem.length →
      (apply_table mem base t)[base + off]? = some b
  | [], _, _, _, _, hm, _ => by cases hm
  | (o, c) :: rest, mem, off, b, hn, hm, hlt => by
    simp only [List.map_cons, List.nodup_cons] at hn
    simp only [apply_table]
    rcases List.mem_cons.mp hm with e | hin
    · have ho : o = off := (congrArg Prod.fst e).symm
      have hc : c = b := (congrArg Prod.snd e).symm
      rw [ho] at hn
      rw [ho, hc, apply_table_get_other base rest _ _ ?_]
      · exact List.getElem?_set_self hlt
      · intro e2 he heq
        have h2 : off = e2.1 := by omega
        exact hn.1 (h2 ▸ List.mem_map_of_mem Prod.fst he)
    · exact apply_table_get_entry base rest _ off b hn.2 hin (by rw [List.length_set]; exact hlt)

theorem patch_offsets_nodup : patch_offsets.Nodup := by
  decide

theorem patch_offsets_le : ∀ off ∈ patch_offsets, off ≤ 0xbee8 := by
  decide

theorem patch_offsets_ge : ∀ off ∈ patch_offsets, 0x937e ≤ off := by
  decide

theorem mem_patch_offsets {e : Nat × Byte} (h : e ∈ patch_table) : e.1 ∈ patch_offsets :=
  List.mem_map_of_mem Prod.fst h

/-- The pipeline after a successful inspection. -/
theorem pipeline_of_inspect {fw : List Byte} {r : Report} (h : inspect fw = some r) :
    pipeline fw =
      if CODE_CHECKSUM ≠ r.calc_code_csum then some (Verdict.rejected fw)
      else if CODE_OFFSET + 0xbee8 < fw.length then
        some (Verdict.patched (output_image fw r.code_len))
      else none := by
  obtain ⟨-, hsize, -, -⟩ := inspect_some h
  simp only [pipeline, h, Option.bind_eq_bind, Option.some_bind, Option.pure_def]
  by_cases hg : CODE_CHECKSUM ≠ r.calc_code_csum
  · rw [if_pos hg, if_pos hg]
  · rw [if_neg hg, if_neg hg]
    by_cases hb : CODE_OFFSET + 0xbee8 < fw.length
    · have hl := apply_table_length CODE_OFFSET patch_table fw
      have hc := @calculate_code_checksum_eq (apply_table fw CODE_OFFSET patch_table) CODE_OFFSET
        r.code_len (by omega)
      have s1 := @store_eq_some (apply_table fw CODE_OFFSET patch_table) 0
        (CODE_OFFSET + r.code_len + 2) (code_checksum_spec
          ((apply_table fw CODE_OFFSET patch_table).drop CODE_OFFSET) r.code_len >>> 8)
        (by omega)
      simp only [Nat.zero_add] at s1
      simp only [hb, if_true, patch_firmware_some hb, Option.some_bind, hc, s1]
      rw [store_eq_some (by rw [List.length_set]; omega)]
      simp only [Nat.zero_add, Option.some_bind, output_image]
    · simp only [hb, if_false, patch_firmware_none (Nat.le_of_not_lt hb), Option.none_bind]

theorem pipeline_of_inspect_none {fw : List Byte} (h : inspect fw = none) :
    pipeline fw = none := by
  simp only [pipeline, h, Option.bind_eq_bind, Option.none_bind]

/-! ## Big-endian fields -/

theorem be16_eq (hi lo : Byte) : be16 hi lo = 256 * hi.val + lo.val := by
  have h1 := hi.isLt
  have h2 := lo.isLt
  have e := @Nat.mul_add_lt_is_or 8 lo.val (by omega) hi.val
  unfold be16
  rw [Nat.shiftLeft_eq, Nat.mul_comm, ← e]
  omega

theorem ofNat_val (v : Nat) : ((Fin.ofNat v : Byte)).val = v % 256 :=
  rfl

/-- Outside the patched positions and the code-checksum field the output is the input. -/
theorem output_image_get_other {fw : List Byte} {len j : Nat}
    (hp : ∀ off ∈ patch_offsets, j ≠ CODE_OFFSET + off)
    (h2 : j ≠ CODE_OFFSET + len + 2) (h3 : j ≠ CODE_OFFSET + len + 3) :
    (output_image fw len)[j]? = fw[j]? := by
  unfold output_image
  rw [List.getElem?_set_ne (Ne.symm h3), List.getElem?_set_ne (Ne.symm h2)]
  exact apply_table_get_other CODE_OFFSET patch_table fw j
    (fun e he => hp e.1 (mem_patch_offsets he))

/-- The code region of the output is the code region of the patched buffer. -/
theorem output_image_code {fw : List Byte} {len k : Nat} (hk : k < len) :
    (output_image fw len)[CODE_OFFSET + k]? =
      (apply_table fw CODE_OFFSET patch_table)[CODE_OFFSET + k]? := by
  unfold output_image
  rw [List.getElem?_set_ne (by omega), List.getElem?_set_ne (by omega)]

theorem output_image_field_hi {fw : List Byte} {len : Nat}
    (hsize : CODE_OFFSET + len + 4 ≤ fw.length) :
    (output_image fw len)[CODE_OFFSET + len + 2]? = some (Fin.ofNat (code_checksum_spec
      ((apply_table fw CODE_OFFSET patch_table).drop CODE_OFFSET) len >>> 8)) := by
  unfold output_image
  rw [List.getElem?_set_ne (by omega)]
  exact List.getElem?_set_self (by rw [apply_table_length]; omega)

theorem output_image_field_lo {fw : List Byte} {len : Nat}
    (hsize : CODE_OFFSET + len + 4 ≤ fw.length) :
    (output_image fw len)[CODE_OFFSET + len + 3]? = some (Fin.ofNat (code_checksum_spec
      ((apply_table fw CODE_OFFSET patch_table).drop CODE_OFFSET) len &&& 0xff)) := by
  unfold output_image
  exact List.getElem?_set_self (by rw [List.length_set, apply_table_length]; omega)

/-! ## The pipeline in terms of the gate -/

theorem pipeline_patched_of_gate {fw : List Byte} {len : Nat} (hlen : code_len fw = some len)
    (hsize : CODE_OFFSET + len + 4 ≤ fw.length)
    (hgate : calculate_code_checksum fw CODE_OFFSET len = some CODE_CHECKSUM)
    (hb : CODE_OFFSET + 0xbee8 < fw.length) :
    pipeline fw = some (Verdict.patched (output_image fw len)) := by
  obtain ⟨r, hr, e1, -, -⟩ := inspect_of_length hlen hsize
  obtain ⟨-, -, -, hc⟩ := inspect_some hr
  rw [e1, hgate] at hc
  have hg : ¬ (CODE_CHECKSUM ≠ r.calc_code_csum) := by
    simpa using Option.some.inj hc
  rw [pipeline_of_inspect hr, if_neg hg, if_pos hb, e1]

theorem pipeline_fault_of_gate {fw : List Byte} {len : Nat} (hlen : code_len fw = some len)
    (hgate : calculate_code_checksum fw CODE_OFFSET len = some CODE_CHECKSUM)
    (hb : fw.length ≤ CODE_OFFSET + 0xbee8) :
    pipeline fw = none := by
  cases hi : inspect fw with
  | none => exact pipeline_of_inspect_none hi
  | some r =>
    obtain ⟨h1, -, -, hc⟩ := inspect_some hi
    rw [hlen] at h1
    cases h1
    rw [hgate] at hc
    have hg : ¬ (CODE_CHECKSUM ≠ r.calc_code_csum) := by
      simpa using Option.some.inj hc
    rw [pipeline_of_inspect hi, if_neg hg, if_neg (Nat.not_lt.mpr hb)]

theorem pipeline_rejected_of_gate {fw : List Byte} {len c : Nat} (hlen : code_len fw = some len)
    (hsize : CODE_OFFSET + len + 4 ≤ fw.length)
    (hc : calculate_code_checksum fw CODE_OFFSET len = some c) (hne : c ≠ CODE_CHECKSUM) :
    pipeline fw = some (Verdict.rejected fw) := by
  obtain ⟨r, hr, e1, -, -⟩ := inspect_of_length hlen hsize
  obtain ⟨-, -, -, hc2⟩ := inspect_some hr
  rw [e1, hc] at hc2
  have hg : CODE_CHECKSUM ≠ r.calc_code_csum := by
    intro e
    exact hne (by rw [e]; exact Option.some.inj hc2)
  rw [pipeline_of_inspect hr, if_pos hg]

/-- What a patched verdict tells about the input. -/
theorem pipeline_patched_inv {fw out : List Byte} {len : Nat} (hlen : code_len fw = some len)
    (h : pipeline fw = some (Verdict.patched out)) :
    CODE_OFFSET + len + 4 ≤ fw.length ∧ CODE_OFFSET + 0xbee8 < fw.length ∧
      calculate_code_checksum fw CODE_OFFSET len = some CODE_CHECKSUM ∧
      out = output_image fw len := by
  cases hi : inspect fw with
  | none => rw [pipeline_of_inspect_none hi] at h; cases h
  | some r =>
    obtain ⟨h1, hsize, -, hc⟩ := inspect_some hi
    rw [hlen] at h1
    cases h1
    rw [pipeline_of_inspect hi] at h
    by_cases hg : CODE_CHECKSUM ≠ r.calc_code_csum
    · rw [if_pos hg] at h
      cases h
    · rw [if_neg hg] at h
      by_cases hb : CODE_OFFSET + 0xbee8 < fw.length
      · rw [if_pos hb] at h
        have e : CODE_CHECKSUM = r.calc_code_csum := by
          by_contra hne
          exact hg hne
        refine ⟨hsize, hb, by rw [hc, e], ?_⟩
        cases h
        rfl
      · rw [if_neg hb] at h
        cases h

/-- What a rejected verdict tells: the buffer is the input, untouched. -/
theorem pipeline_rejected_inv {fw out : List Byte}
    (h : pipeline fw = some (Verdict.rejected out)) : out = fw := by
  cases hi : inspect fw with
  | none => rw [pipeline_of_inspect_none hi] at h; cases h
  | some r =>
    rw [pipeline_of_inspect hi] at h
    by_cases hg : CODE_CHECKSUM ≠ r.calc_code_csum
    · rw [if_pos hg] at h
      cases h
      rfl
    · rw [if_neg hg] at h
      by_cases hb : CODE_OFFSET + 0xbee8 < fw.length
      · rw [if_pos hb] at h
        cases h
      · rw [if_neg hb] at h
        cases h

/-! ## Facts about the sample images -/

theorem range_sum_eq_take_sum :
    ∀ (data : List Byte) (len : Nat),
      ((List.range len).map (byteAt data)).sum = ((data.take len).map Fin.val).sum
  | [], len => by
    have h : ∀ i ∈ List.range len, byteAt [] i = 0 := fun i _ => rfl
    rw [List.map_congr_left h]
    simp
  | _ :: _, 0 => rfl
  | a :: l, n + 1 => by
    rw [List.range_succ_eq_map, List.map_cons, List.map_map, List.sum_cons, List.take_succ_cons,
      List.map_cons, List.sum_cons, ← range_sum_eq_take_sum l n]
    rfl

theorem code_checksum_spec_take (data : List Byte) (len : Nat) :
    code_checksum_spec data len = ((data.take len).map Fin.val).sum % 65536 := by
  rw [code_checksum_spec, range_sum_eq_take_sum]

theorem sample_header_length (hi lo : Byte) : (sample_header hi lo).length = CODE_OFFSET := by
  simp [sample_header, CODE_OFFSET]

theorem sample_code_length (n : Nat) : (sample_code n).length = n + 10 := by
  simp [sample_code]

theorem sample_code_sum (n : Nat) : ((sample_code n).map Fin.val).sum = CODE_CHECKSUM := by
  simp only [sample_code, CODE_CHECKSUM, List.map_append, List.sum_append, List.map_replicate,
    List.sum_replicate, List.map_cons, List.map_nil, List.sum_cons, List.sum_nil, smul_eq_mul]
  rfl

theorem sample_fw_length (hi lo : Byte) (n : Nat) (tail : List Byte) :
    (sample_fw hi lo n tail).length = CODE_OFFSET + (n + 10) + tail.length := by
  simp only [sample_fw, List.length_append, sample_header_length, sample_code_length]

theorem sample_fw_code_len (hi lo : Byte) (n : Nat) (tail : List Byte) :
    code_len (sample_fw hi lo n tail) = some (be16 hi lo) := by
  simp [code_len, load, sample_fw, sample_header]

theorem sample_fw_gate (hi lo : Byte) (n : Nat) (tail : List Byte) :
    calculate_code_checksum (sample_fw hi lo n tail) CODE_OFFSET (n + 10) =
      some CODE_CHECKSUM := by
  rw [calculate_code_checksum_eq (by rw [sample_fw_length]; omega), code_checksum_spec_take]
  have e : ((sample_fw hi lo n tail).drop CODE_OFFSET).take (n + 10) = sample_code n := by
    unfold sample_fw
    rw [List.append_assoc, List.drop_left' (sample_header_length hi lo),
      List.take_left' (sample_code_length n)]
  rw [e, sample_code_sum]
  rfl

/-! ## The checksum functions against their reference definitions -/

/-- C5: for every buffer `data` (the bytes of `mem` from `data` on) and every `len` not
exceeding its size, in particular every 16-bit one, `calculate_code_checksum(data, len)`
returns the sum of `data[i]` for `0 ≤ i < len` modulo 65536, no index excluded. -/
theorem calculate_code_checksum_refines (mem : List Byte) (data len : Nat)
    (h : data + len ≤ mem.length) :
    calculate_code_checksum mem data len = some (code_checksum_spec (mem.drop data) len) :=
  calculate_code_checksum_eq h

theorem calculate_code_checksum_refines_witness :
    0 + 3 ≤ ([0xff, 0xff, 0x03, 0x07] : List Byte).length ∧
      calculate_code_checksum [0xff, 0xff, 0x03, 0x07] 0 3 =
        some (code_checksum_spec (List.drop 0 [0xff, 0xff, 0x03, 0x07]) 3) ∧
      code_checksum_spec (List.drop 0 [0xff, 0xff, 0x03, 0x07]) 3 = 513 :=
  ⟨by decide, calculate_code_checksum_refines [0xff, 0xff, 0x03, 0x07] 0 3 (by decide),
    by decide⟩

/-- C6: for every buffer `data` (the bytes of `mem` from `data` on) and every `len` not
exceeding its size, `calculate_header_checksum(data, len)` returns the sum of `data[i]` for
`2 ≤ i < len` with `i` outside `[0x0c, 0x10)`, modulo 65536; and it returns the same on any
other buffer that agrees with this one at those indices, so it does not depend on bytes 0, 1,
`0x0c..0x0f` or any byte at an index `≥ len` (for the pipeline, `len = CODE_OFFSET`). -/
theorem calculate_header_checksum_refines (mem : List Byte) (data len : Nat)
    (h : data + len ≤ mem.length) :
    calculate_header_checksum mem data len = some (header_checksum_spec (mem.drop data) len) ∧
      ∀ other : List Byte,
        (∀ k, 2 ≤ k → k < len → ¬ (0x0c ≤ k ∧ k < 0x10) → other[data + k]? = mem[data + k]?) →
        calculate_header_checksum other data len = calculate_header_checksum mem data len :=
  ⟨calculate_header_checksum_eq h, fun _ hk => calculate_header_checksum_congr hk⟩

theorem calculate_header_checksum_refines_witness :
    0 + CODE_OFFSET ≤ (sample_header 0xbe 0xe9).length ∧
      calculate_header_checksum (sample_header 0xbe 0xe9) 0 CODE_OFFSET = some 0x1a7 ∧
      calculate_header_checksum ([7, 9, 0xbe, 0xe9] ++ List.replicate 8 0 ++ [1, 2, 3, 4] ++
        List.replicate 32 0 ++ [5, 6]) 0 CODE_OFFSET = some 0x1a7 := by
  have h := calculate_header_checksum_refines (sample_header 0xbe 0xe9) 0 CODE_OFFSET
    (by decide)
  refine ⟨by decide, ?_, ?_⟩
  · rw [h.1]
    decide
  · rw [h.2 _ (by decide), h.1]
    decide

/-! ## The gate -/

theorem code_len_congr {m1 m2 : List Byte} (h2 : m1[2]? = m2[2]?) (h3 : m1[3]? = m2[3]?) :
    code_len m1 = code_len m2 := by
  simp only [code_len, load, Nat.zero_add, h2, h3]

theorem main_output_of_pipeline {w : World} {fw : List Byte} {f : Final}
    (hw : w.file = some fw) (hm : main w = some f) (hf : f.output ≠ none) :
    ∃ out, pipeline fw = some (Verdict.patched out) := by
  unfold main at hm
  rw [hw] at hm
  simp only at hm
  cases hp : pipeline fw with
  | none =>
    rw [hp] at hm
    by_cases h1 : w.mallocOk = true <;> by_cases h2 : w.freadOk = true <;>
      simp [h1, h2] at hm
    exact absurd (hm ▸ rfl) hf
  | some v =>
    cases v with
    | rejected b =>
      rw [hp] at hm
      by_cases h1 : w.mallocOk = true <;> by_cases h2 : w.freadOk = true <;>
        simp [h1, h2] at hm <;> exact absurd (hm ▸ rfl) hf
    | patched out => exact ⟨out, rfl⟩

/-- C1: when the code checksum computed over the `code_len` bytes at `CODE_OFFSET` is not
`CODE_CHECKSUM`, the only verdict the pipeline can reach is the rejection with the buffer
byte-for-byte as it was read (no patch, no checksum rewrite), `main` writes no output file,
and on a buffer that holds the code region and the four checksum bytes the pipeline does
reach that rejection. -/
theorem gate_rejects (fw : List Byte) (len c : Nat) (hlen : code_len fw = some len)
    (hc : calculate_code_checksum fw CODE_OFFSET len = some c) (hne : c ≠ CODE_CHECKSUM) :
    (∀ v, pipeline fw = some v → v = Verdict.rejected fw) ∧
      (∀ w f, w.file = some fw → main w = some f → f.output = none) ∧
      (CODE_OFFSET + len + 4 ≤ fw.length → pipeline fw = some (Verdict.rejected fw)) := by
  have hnp : ∀ out, pipeline fw ≠ some (Verdict.patched out) := by
    intro out h
    obtain ⟨-, -, hg, -⟩ := pipeline_patched_inv hlen h
    rw [hc] at hg
    exact hne (Option.some.inj hg)
  refine ⟨?_, ?_, fun hsize => pipeline_rejected_of_gate hlen hsize hc hne⟩
  · intro v hv
    cases v with
    | rejected b => rw [pipeline_rejected_inv hv]
    | patched out => exact absurd hv (hnp out)
  · intro w f hw hm
    by_contra hf
    obtain ⟨out, ho⟩ := main_output_of_pipeline hw hm hf
    exact hnp out ho

theorem gate_rejects_witness :
    code_len fw_other_build = some 10 ∧
      calculate_code_checksum fw_other_build CODE_OFFSET 10 = some 0 ∧
      pipeline fw_other_build = some (Verdict.rejected fw_other_build) ∧
      main ⟨some fw_other_build, true, true, true⟩ = some ⟨0, none⟩ := by
  have h := gate_rejects fw_other_build 10 0 (by decide) (by decide) (by decide)
  refine ⟨by decide, by decide, h.2.2 (by decide), ?_⟩
  simp only [main, h.2.2 (by decide)]
  rfl

/-! ## The output of a passed gate -/

theorem fw_good_code_len : code_len fw_good = some 0xbee9 := by
  rw [fw_good, sample_fw_code_len]
  decide

theorem fw_good_length : fw_good.length = 48925 := by
  rw [fw_good, sample_fw_length]
  decide

theorem fw_good_gate : calculate_code_checksum fw_good CODE_OFFSET 0xbee9 = some CODE_CHECKSUM :=
  sample_fw_gate 0xbe 0xe9 48863 [0, 0, 0, 0]

theorem fw_good_size : CODE_OFFSET + 0xbee9 + 4 ≤ fw_good.length := by
  rw [fw_good_length]
  decide

theorem fw_good_bound : CODE_OFFSET + 0xbee8 < fw_good.length := by
  rw [fw_good_length]
  decide

/-- With the code region reaching past offset `0xbee8`, the output holds the byte of the
table at every offset of the table. -/
theorem output_image_get_entry {fw : List Byte} {len off : Nat} {b : Byte}
    (hoff : 0xbee8 < len) (hsize : CODE_OFFSET + len + 4 ≤ fw.length)
    (hm : (off, b) ∈ patch_table) : (output_image fw len)[CODE_OFFSET + off]? = some b := by
  have hle := patch_offsets_le off (mem_patch_offsets hm)
  rw [output_image_code (by omega)]
  exact apply_table_get_entry CODE_OFFSET patch_table fw off b patch_offsets_nodup hm
    (by omega)

/-- C3: for every buffer that passes the gate, with `code_len > 0xbee8` and length at least
`CODE_OFFSET + code_len + 4`, the pipeline produces an output, and the output holds at
`CODE_OFFSET + offset` the replacement bytes of all six edits: `0x9604..0x9605 = bf 44`,
`0x960d..0x960e = bf 44`, `0xbe90..0xbe91 = 00 06`, `0xbee8 = 80`,
`0x937e..0x9380 = 00 7e 10`, `0x9399..0x939b = 00 7e 10`. -/
theorem patch_content (fw : List Byte) (len : Nat) (hlen : code_len fw = some len)
    (hgate : calculate_code_checksum fw CODE_OFFSET len = some CODE_CHECKSUM)
    (hoff : 0xbee8 < len) (hsize : CODE_OFFSET + len + 4 ≤ fw.length) :
    ∃ out, pipeline fw = some (Verdict.patched out) ∧
      out[CODE_OFFSET + 0x9604]? = some 0xbf ∧ out[CODE_OFFSET + 0x9605]? = some 0x44 ∧
      out[CODE_OFFSET + 0x960d]? = some 0xbf ∧ out[CODE_OFFSET + 0x960e]? = some 0x44 ∧
      out[CODE_OFFSET + 0xbe90]? = some 0x00 ∧ out[CODE_OFFSET + 0xbe91]? = some 0x06 ∧
      out[CODE_OFFSET + 0xbee8]? = some 0x80 ∧
      out[CODE_OFFSET + 0x937e]? = some 0x00 ∧ out[CODE_OFFSET + 0x937f]? = some 0x7e ∧
      out[CODE_OFFSET + 0x9380]? = some 0x10 ∧
      out[CODE_OFFSET + 0x9399]? = some 0x00 ∧ out[CODE_OFFSET + 0x939a]? = some 0x7e ∧
      out[CODE_OFFSET + 0x939b]? = some 0x10 :=
  ⟨output_image fw len, pipeline_patched_of_gate hlen hsize hgate (by omega),
    output_image_get_entry hoff hsize (by decide), output_image_get_entry hoff hsize (by decide),
    output_image_get_entry hoff hsize (by decide), output_image_get_entry hoff hsize (by decide),
    output_image_get_entry hoff hsize (by decide), output_image_get_entry hoff hsize (by decide),
    output_image_get_entry hoff hsize (by decide), output_image_get_entry hoff hsize (by decide),
    output_image_get_entry hoff hsize (by decide), output_image_get_entry hoff hsize (by decide),
    output_image_get_entry hoff hsize (by decide), output_image_get_entry hoff hsize (by decide),
    output_image_get_entry hoff hsize (by decide)⟩

theorem patch_content_witness :
    code_len fw_good = some 0xbee9 ∧
      calculate_code_checksum fw_good CODE_OFFSET 0xbee9 = some CODE_CHECKSUM ∧
      0xbee8 < 0xbee9 ∧ CODE_OFFSET + 0xbee9 + 4 ≤ fw_good.length ∧
      ∃ out, pipeline fw_good = some (Verdict.patched out) ∧
        out[CODE_OFFSET + 0x9604]? = some 0xbf ∧ out[CODE_OFFSET + 0x9605]? = some 0x44 ∧
        out[CODE_OFFSET + 0x960d]? = some 0xbf ∧ out[CODE_OFFSET + 0x960e]? = some 0x44 ∧
        out[CODE_OFFSET + 0xbe90]? = some 0x00 ∧ out[CODE_OFFSET + 0xbe91]? = some 0x06 ∧
        out[CODE_OFFSET + 0xbee8]? = some 0x80 ∧
        out[CODE_OFFSET + 0x937e]? = some 0x00 ∧ out[CODE_OFFSET + 0x937f]? = some 0x7e ∧
        out[CODE_OFFSET + 0x9380]? = some 0x10 ∧
        out[CODE_OFFSET + 0x9399]? = some 0x00 ∧ out[CODE_OFFSET + 0x939a]? = some 0x7e ∧
        out[CODE_OFFSET + 0x939b]? = some 0x10 :=
  ⟨fw_good_code_len, fw_good_gate, by decide, fw_good_size,
    patch_content fw_good 0xbee9 fw_good_code_len fw_good_gate (by decide) fw_good_size⟩

theorem apply_table_get_congr (base : Nat) :
    ∀ (t : List (Nat × Byte)) (m1 m2 : List Byte) (j : Nat),
      m1.length = m2.length → m1[j]? = m2[j]? →
      (apply_table m1 base t)[j]? = (apply_table m2 base t)[j]?
  | [], _, _, _, _, h => h
  | (off, b) :: rest, m1, m2, j, hl, h => by
    simp only [apply_table]
    apply apply_table_get_congr base rest
    · rw [List.length_set, List.length_set, hl]
    · rw [List.getElem?_set, List.getElem?_set, hl, h]

/-- The tail of a sample image starts right after its code region. -/
theorem sample_fw_get_tail (hi lo : Byte) (n : Nat) (tail : List Byte) (k : Nat) :
    (sample_fw hi lo n tail)[CODE_OFFSET + (n + 10) + k]? = tail[k]? := by
  unfold sample_fw
  rw [List.getElem?_append_right (by
    rw [List.length_append, sample_header_length, sample_code_length]; omega)]
  rw [List.length_append, sample_header_length, sample_code_length]
  congr 1
  omega

theorem sample_fw_get_front (hi lo : Byte) (n : Nat) (t1 t2 : List Byte) (i : Nat)
    (h : i < CODE_OFFSET + (n + 10)) :
    (sample_fw hi lo n t1)[i]? = (sample_fw hi lo n t2)[i]? := by
  have hl : i < (sample_header hi lo ++ sample_code n).length := by
    rw [List.length_append, sample_header_length, sample_code_length]
    exact h
  unfold sample_fw
  rw [List.getElem?_append_left hl, List.getElem?_append_left hl]

theorem output_image_agree {fw1 fw2 : List Byte} {len : Nat} (hl : fw2.length = fw1.length)
    (hsize : CODE_OFFSET + len + 4 ≤ fw1.length)
    (hdiff : ∀ i, i < CODE_OFFSET + len ∨ CODE_OFFSET + len + 4 ≤ i → fw1[i]? = fw2[i]?)
    (i : Nat) (h0 : i ≠ CODE_OFFSET + len) (h1 : i ≠ CODE_OFFSET + len + 1) :
    (output_image fw1 len)[i]? = (output_image fw2 len)[i]? := by
  have hc : code_checksum_spec ((apply_table fw1 CODE_OFFSET patch_table).drop CODE_OFFSET) len =
      code_checksum_spec ((apply_table fw2 CODE_OFFSET patch_table).drop CODE_OFFSET) len := by
    have e1 := @calculate_code_checksum_eq (apply_table fw1 CODE_OFFSET patch_table) CODE_OFFSET
      len (by rw [apply_table_length]; omega)
    have e2 := @calculate_code_checksum_eq (apply_table fw2 CODE_OFFSET patch_table) CODE_OFFSET
      len (by rw [apply_table_length]; omega)
    have e3 : calculate_code_checksum (apply_table fw1 CODE_OFFSET patch_table) CODE_OFFSET len =
        calculate_code_checksum (apply_table fw2 CODE_OFFSET patch_table) CODE_OFFSET len :=
      calculate_code_checksum_congr (fun k hk =>
        apply_table_get_congr CODE_OFFSET patch_table fw1 fw2 _ hl.symm
          (hdiff _ (Or.inl (by omega))))
    rw [e1, e2] at e3
    exact Option.some.inj e3
  by_cases h2 : i = CODE_OFFSET + len + 2
  · rw [h2, output_image_field_hi hsize, output_image_field_hi (by omega), hc]
  · by_cases h3 : i = CODE_OFFSET + len + 3
    · rw [h3, output_image_field_lo hsize, output_image_field_lo (by omega), hc]
    · unfold output_image
      rw [List.getElem?_set_ne (Ne.symm h3), List.getElem?_set_ne (Ne.symm h2),
        List.getElem?_set_ne (Ne.symm h3), List.getElem?_set_ne (Ne.symm h2)]
      exact apply_table_get_congr CODE_OFFSET patch_table fw1 fw2 i hl.symm
        (hdiff i (by omega))

/-- C7: two buffers of equal length at least `CODE_OFFSET + code_len + 4`, with
`code_len > 0xbee8`, that differ only in the four stored checksum bytes are both rejected
or both patched; when patched, the outputs agree everywhere except at the two header-checksum
bytes, which each output has from its own input; and the buffer is patched exactly when its
computed code checksum is `CODE_CHECKSUM`, whatever the stored checksums are. -/
theorem stored_checksums_warning_only (fw1 fw2 : List Byte) (len : Nat)
    (hlen : code_len fw1 = some len) (hl : fw2.length = fw1.length)
    (hsize : CODE_OFFSET + len + 4 ≤ fw1.length) (hoff : 0xbee8 < len)
    (hdiff : ∀ i, i < CODE_OFFSET + len ∨ CODE_OFFSET + len + 4 ≤ i → fw1[i]? = fw2[i]?) :
    ((pipeline fw1 = some (Verdict.rejected fw1) ∧ pipeline fw2 = some (Verdict.rejected fw2)) ∨
      ∃ o1 o2, pipeline fw1 = some (Verdict.patched o1) ∧
        pipeline fw2 = some (Verdict.patched o2) ∧
        (∀ i, i ≠ CODE_OFFSET + len → i ≠ CODE_OFFSET + len + 1 → o1[i]? = o2[i]?) ∧
        o1[CODE_OFFSET + len]? = fw1[CODE_OFFSET + len]? ∧
        o1[CODE_OFFSET + len + 1]? = fw1[CODE_OFFSET + len + 1]? ∧
        o2[CODE_OFFSET + len]? = fw2[CODE_OFFSET + len]? ∧
        o2[CODE_OFFSET + len + 1]? = fw2[CODE_OFFSET + len + 1]?) ∧
      ((∃ o1, pipeline fw1 = some (Verdict.patched o1)) ↔
        calculate_code_checksum fw1 CODE_OFFSET len = some CODE_CHECKSUM) := by
  have hlen2 : code_len fw2 = some len := by
    rw [← hlen]
    exact code_len_congr (hdiff 2 (Or.inl (by simp only [CODE_OFFSET]; omega))).symm
      (hdiff 3 (Or.inl (by simp only [CODE_OFFSET]; omega))).symm
  have hc1 := @calculate_code_checksum_eq fw1 CODE_OFFSET len (by omega)
  have hc12 : calculate_code_checksum fw2 CODE_OFFSET len =
      calculate_code_checksum fw1 CODE_OFFSET len :=
    calculate_code_checksum_congr (fun k hk => (hdiff _ (Or.inl (by omega))).symm)
  have hother : ∀ (fw : List Byte) (j : Nat), CODE_OFFSET + len ≤ j → j < CODE_OFFSET + len + 2 →
      (output_image fw len)[j]? = fw[j]? := fun fw j hj1 hj2 =>
    output_image_get_other (fun off ho => by
      have := patch_offsets_le off ho
      omega) (by omega) (by omega)
  refine ⟨?_, ?_⟩
  · by_cases hg : code_checksum_spec (fw1.drop CODE_OFFSET) len = CODE_CHECKSUM
    · right
      rw [hg] at hc1
      refine ⟨output_image fw1 len, output_image fw2 len,
        pipeline_patched_of_gate hlen hsize hc1 (by omega),
        pipeline_patched_of_gate hlen2 (by omega) (by rw [hc12, hc1]) (by omega),
        fun i h0 h1 => output_image_agree hl hsize hdiff i h0 h1,
        hother fw1 _ (by omega) (by omega), hother fw1 _ (by omega) (by omega),
        hother fw2 _ (by omega) (by omega), hother fw2 _ (by omega) (by omega)⟩
    · left
      exact ⟨pipeline_rejected_of_gate hlen hsize hc1 hg,
        pipeline_rejected_of_gate hlen2 (by omega) (by rw [hc12, hc1]) hg⟩
  · constructor
    · rintro ⟨o1, ho1⟩
      exact (pipeline_patched_inv hlen ho1).2.2.1
    · intro hg
      exact ⟨_, pipeline_patched_of_gate hlen hsize hg (by omega)⟩

theorem fw_good_alt_agree (i : Nat)
    (h : i < CODE_OFFSET + 0xbee9 ∨ CODE_OFFSET + 0xbee9 + 4 ≤ i) :
    fw_good[i]? = fw_good_alt[i]? := by
  rcases h with h | h
  · exact sample_fw_get_front 0xbe 0xe9 48863 _ _ i h
  · have l1 : fw_good.length ≤ i := by
      rw [fw_good_length]
      simp only [CODE_OFFSET] at h
      omega
    have l2 : fw_good_alt.length ≤ i := by
      rw [fw_good_alt, sample_fw_length]
      simp only [CODE_OFFSET, List.length_cons, List.length_nil] at h ⊢
      omega
    rw [List.getElem?_eq_none l1, List.getElem?_eq_none l2]

theorem stored_checksums_warning_only_witness :
    code_len fw_good = some 0xbee9 ∧ fw_good_alt.length = fw_good.length ∧
      CODE_OFFSET + 0xbee9 + 4 ≤ fw_good.length ∧
      fw_good[CODE_OFFSET + 0xbee9]? = some 0 ∧ fw_good_alt[CODE_OFFSET + 0xbee9]? = some 1 ∧
      ∃ o1 o2, pipeline fw_good = some (Verdict.patched o1) ∧
        pipeline fw_good_alt = some (Verdict.patched o2) ∧
        (∀ i, i ≠ CODE_OFFSET + 0xbee9 → i ≠ CODE_OFFSET + 0xbee9 + 1 → o1[i]? = o2[i]?) ∧
        o1[CODE_OFFSET + 0xbee9]? = some 0 ∧ o2[CODE_OFFSET + 0xbee9]? = some 1 := by
  have hl : fw_good_alt.length = fw_good.length := by
    rw [fw_good_length, fw_good_alt, sample_fw_length]
    decide
  have h := stored_checksums_warning_only fw_good fw_good_alt 0xbee9 fw_good_code_len hl
    fw_good_size (by decide) fw_good_alt_agree
  have t1 : fw_good[CODE_OFFSET + 0xbee9]? = some 0 :=
    sample_fw_get_tail 0xbe 0xe9 48863 [0, 0, 0, 0] 0
  have t2 : fw_good_alt[CODE_OFFSET + 0xbee9]? = some 1 :=
    sample_fw_get_tail 0xbe 0xe9 48863 [1, 2, 3, 4] 0
  obtain ⟨o1, ho1⟩ := h.2.mpr fw_good_gate
  rcases h.1 with ⟨hr, -⟩ | ⟨p1, p2, hp1, hp2, hs, a1, -, a2, -⟩
  · rw [ho1] at hr
    cases hr
  · exact ⟨fw_good_code_len, hl, fw_good_size, t1, t2, p1, p2, hp1, hp2, hs,
      by rw [a1, t1], by rw [a2, t2]⟩

/-! ## Buffers shorter than their own layout -/

/-- C8, as stated, fails: on a file of four zero bytes (code length 0, shorter than
`CODE_OFFSET + 0 + 4`) the pipeline does not reach a rejection; it reads past the end of
the buffer. -/
theorem boundary_not_rejected :
    code_len fw_truncated = some 0 ∧ fw_truncated.length < CODE_OFFSET + 0 + 4 ∧
      pipeline fw_truncated ≠ some (Verdict.rejected fw_truncated) ∧
      pipeline fw_truncated = none ∧
      main ⟨some fw_truncated, true, true, true⟩ = none := by
  decide

/-- C8, amended: the pipeline has no length check.  For every buffer whose length is less
than `CODE_OFFSET + code_len + 4`, the inspection before the gate reads the buffer at an
index beyond its end: neither the pipeline nor `main` reaches a rejection or an output. -/
theorem short_buffer_reads_past_end (fw : List Byte) (len : Nat)
    (hlen : code_len fw = some len) (hshort : fw.length < CODE_OFFSET + len + 4) :
    inspect fw = none ∧ pipeline fw = none ∧
      ∀ w : World, w.file = some fw → w.mallocOk = true → w.freadOk = true → main w = none := by
  have hi : inspect fw = none := inspect_none_of_short (fun l hl => by
    rw [hlen] at hl
    cases hl
    exact hshort)
  have hp := pipeline_of_inspect_none hi
  refine ⟨hi, hp, fun w hw h1 h2 => ?_⟩
  simp only [main, hw, h1, h2, hp, if_true]

theorem short_buffer_reads_past_end_witness :
    code_len fw_truncated = some 0 ∧ fw_truncated.length < CODE_OFFSET + 0 + 4 ∧
      inspect fw_truncated = none ∧ pipeline fw_truncated = none :=
  ⟨by decide, by decide,
    (short_buffer_reads_past_end fw_truncated 0 (by decide) (by decide)).1,
    (short_buffer_reads_past_end fw_truncated 0 (by decide) (by decide)).2.1⟩

/-! ## The gate and the code length -/

theorem fw_short_code_len : code_len fw_short_code = some 10 := by
  rw [fw_short_code, sample_fw_code_len]
  decide

theorem fw_short_code_length : fw_short_code.length = 48958 := by
  rw [fw_short_code, sample_fw_length, List.length_replicate]
  decide

theorem fw_short_code_gate :
    calculate_code_checksum fw_short_code CODE_OFFSET 10 = some CODE_CHECKSUM :=
  sample_fw_gate 0x00 0x0a 0 (List.replicate 48900 0)

/-- C9, as stated, fails: an image with code length 10 whose ten code bytes add up to
`CODE_CHECKSUM` passes the gate and is patched; the store at code offset `0xbee8` lands
outside its code region, in the bytes that follow. -/
theorem patch_offset_outside_code :
    code_len fw_short_code = some 10 ∧
      calculate_code_checksum fw_short_code CODE_OFFSET 10 = some CODE_CHECKSUM ∧
      0xbee8 ∈ patch_offsets ∧ ¬ (0xbee8 < 10) ∧
      pipeline fw_short_code = some (Verdict.patched (output_image fw_short_code 10)) ∧
      fw_short_code[CODE_OFFSET + 0xbee8]? = some 0x00 ∧
      (output_image fw_short_code 10)[CODE_OFFSET + 0xbee8]? = some 0x80 := by
  have hb : CODE_OFFSET + 0xbee8 < fw_short_code.length := by
    rw [fw_short_code_length]
    decide
  have hs : CODE_OFFSET + 10 + 4 ≤ fw_short_code.length := by
    rw [fw_short_code_length]
    decide
  refine ⟨fw_short_code_len, fw_short_code_gate, by decide, by decide,
    pipeline_patched_of_gate fw_short_code_len hs fw_short_code_gate hb, ?_, ?_⟩
  · have h := sample_fw_get_tail 0x00 0x0a 0 (List.replicate 48900 0) 48862
    rw [List.getElem?_replicate] at h
    exact h
  · unfold output_image
    rw [List.getElem?_set_ne (by decide), List.getElem?_set_ne (by decide)]
    exact apply_table_get_entry CODE_OFFSET patch_table fw_short_code 0xbee8 0x80
      patch_offsets_nodup (by decide) hb

/-- C9, amended: the gate does not bound the code length.  For every buffer that passes the
gate and has `code_len > 0xbee8`, every patched offset lies within `[0, code_len)`, the
output differs from the input only inside the code region and at the two bytes of the
code-checksum field, and the output exists when the buffer holds the four checksum bytes. -/
theorem patch_offsets_in_range (fw : List Byte) (len : Nat) (hlen : code_len fw = some len)
    (hgate : calculate_code_checksum fw CODE_OFFSET len = some CODE_CHECKSUM)
    (hoff : 0xbee8 < len) :
    (∀ off ∈ patch_offsets, off < len) ∧
      (∀ out, pipeline fw = some (Verdict.patched out) →
        ∀ i, out[i]? ≠ fw[i]? →
          (CODE_OFFSET ≤ i ∧ i < CODE_OFFSET + len) ∨ i = CODE_OFFSET + len + 2 ∨
            i = CODE_OFFSET + len + 3) ∧
      (CODE_OFFSET + len + 4 ≤ fw.length → ∃ out, pipeline fw = some (Verdict.patched out)) := by
  have hin : ∀ off ∈ patch_offsets, off < len := fun off ho => by
    have := patch_offsets_le off ho
    omega
  refine ⟨hin, ?_, fun hsize => ⟨_, pipeline_patched_of_gate hlen hsize hgate (by omega)⟩⟩
  intro out hout i hne
  obtain ⟨-, -, -, e⟩ := pipeline_patched_inv hlen hout
  subst e
  by_contra hc
  apply hne
  apply output_image_get_other
  · intro off ho heq
    have := hin off ho
    exact hc (Or.inl ⟨by omega, by omega⟩)
  · exact fun h2 => hc (Or.inr (Or.inl h2))
  · exact fun h3 => hc (Or.inr (Or.inr h3))

theorem patch_offsets_in_range_witness :
    code_len fw_good = some 0xbee9 ∧
      calculate_code_checksum fw_good CODE_OFFSET 0xbee9 = some CODE_CHECKSUM ∧
      0xbee8 < 0xbee9 ∧ (∀ off ∈ patch_offsets, off < 0xbee9) ∧
      ∃ out, pipeline fw_good = some (Verdict.patched out) :=
  ⟨fw_good_code_len, fw_good_gate, by decide,
    (patch_offsets_in_range fw_good 0xbee9 fw_good_code_len fw_good_gate (by decide)).1,
    (patch_offsets_in_range fw_good 0xbee9 fw_good_code_len fw_good_gate (by decide)).2.2
      fw_good_size⟩

/-! ## The stored header checksum -/

/-- C12: the code length is `256 * fw[2] + fw[3]`, at most 65535; what the inspection in
`main` reads as stored header checksum is `256 * fw[0x30 + code_len] + fw[0x30 + code_len + 1]`
and as stored code checksum `256 * fw[0x30 + code_len + 2] + fw[0x30 + code_len + 3]`; the
code checksum it computes is the reference sum over the bytes `fw[0x30 .. 0x30 + code_len)`
and is the same on every buffer that agrees on those bytes; the inspection succeeds on a
buffer of at least `0x30 + code_len + 4` bytes. -/
theorem container_layout (fw : List Byte) (b2 b3 : Byte) (h2 : fw[0x02]? = some b2)
    (h3 : fw[0x03]? = some b3) :
    CODE_OFFSET = 0x30 ∧ code_len fw = some (256 * b2.val + b3.val) ∧
      256 * b2.val + b3.val ≤ 65535 ∧
      (∀ r, inspect fw = some r →
        r.code_len = 256 * b2.val + b3.val ∧
        ∃ h0 h1 c0 c1 : Byte, fw[CODE_OFFSET + r.code_len]? = some h0 ∧
          fw[CODE_OFFSET + r.code_len + 1]? = some h1 ∧
          fw[CODE_OFFSET + r.code_len + 2]? = some c0 ∧
          fw[CODE_OFFSET + r.code_len + 3]? = some c1 ∧
          r.orig_header_csum = 256 * h0.val + h1.val ∧
          r.orig_code_csum = 256 * c0.val + c1.val ∧
          r.calc_code_csum = code_checksum_spec (fw.drop CODE_OFFSET) r.code_len ∧
          ∀ other : List Byte,
            (∀ k, k < r.code_len → other[CODE_OFFSET + k]? = fw[CODE_OFFSET + k]?) →
            calculate_code_checksum other CODE_OFFSET r.code_len = some r.calc_code_csum) ∧
      (CODE_OFFSET + (256 * b2.val + b3.val) + 4 ≤ fw.length → ∃ r, inspect fw = some r) := by
  have hlen : code_len fw = some (256 * b2.val + b3.val) := by
    simp only [code_len, load, Nat.zero_add, h2, h3, Option.bind_eq_bind, Option.some_bind,
      Option.pure_def, be16_eq]
  refine ⟨rfl, hlen, ?_, ?_, ?_⟩
  · have := b2.isLt
    have := b3.isLt
    omega
  · intro r hr
    obtain ⟨hl, hsize, -, hc⟩ := inspect_some hr
    obtain ⟨h0, h1, c0, c1, l0, l1, l2, l3, e0, e1⟩ := inspect_some_stored hr
    rw [hlen] at hl
    simp only [load, Nat.zero_add, Nat.add_zero] at l0 l1 l2 l3
    have hspec := @calculate_code_checksum_eq fw CODE_OFFSET r.code_len (by omega)
    rw [hc] at hspec
    refine ⟨(Option.some.inj hl).symm, h0, h1, c0, c1, l0, l1, l2, l3, ?_, ?_,
      Option.some.inj hspec, ?_⟩
    · rw [e0, be16_eq]
    · rw [e1, be16_eq]
    · intro other hk
      rw [calculate_code_checksum_congr hk, hc]
  · intro hsize
    obtain ⟨r, hr, -⟩ := inspect_of_length hlen hsize
    exact ⟨r, hr⟩

theorem sample_fw_get_field (hi lo : Byte) (n : Nat) (tail : List Byte) :
    (sample_fw hi lo n tail)[0x02]? = some hi ∧ (sample_fw hi lo n tail)[0x03]? = some lo := by
  simp [sample_fw, sample_header]

theorem container_layout_witness :
    fw_good[0x02]? = some 0xbe ∧ fw_good[0x03]? = some 0xe9 ∧
      code_len fw_good = some 0xbee9 ∧ ∃ r, inspect fw_good = some r ∧ r.code_len = 0xbee9 := by
  have h2 : fw_good[0x02]? = some 0xbe := (sample_fw_get_field 0xbe 0xe9 48863 [0, 0, 0, 0]).1
  have h3 : fw_good[0x03]? = some 0xe9 := (sample_fw_get_field 0xbe 0xe9 48863 [0, 0, 0, 0]).2
  have e : 256 * (0xbe : Byte).val + (0xe9 : Byte).val = 0xbee9 := by decide
  have h := container_layout fw_good 0xbe 0xe9 h2 h3
  rw [e] at h
  obtain ⟨r, hr⟩ := h.2.2.2.2 fw_good_size
  exact ⟨h2, h3, h.2.1, r, hr, (h.2.2.2.1 r hr).1⟩

/-! ## The exit status -/

/-- C13: the exit status on the paths through `main`.  When the input cannot be opened the
run has no defined exit status: `goto err` skips the initialisation of `fw`, and the cleanup
after `err:` reads it.  On the other three paths (short read, gate failure, patched and
written) `main` returns 0, and every run that returns at all returns 0. -/
theorem exit_status_open_failure :
    main ⟨none, true, true, true⟩ = none ∧
      (∀ w, w.file = none → main w = none) ∧
      (∀ w f, main w = some f → f.status = 0) ∧
      (∀ w fw, w.file = some fw → w.mallocOk = true → w.freadOk = false →
        main w = some ⟨0, none⟩) ∧
      (∀ w fw b, w.file = some fw → w.mallocOk = true → w.freadOk = true →
        pipeline fw = some (Verdict.rejected b) → main w = some ⟨0, none⟩) ∧
      (∀ w fw out, w.file = some fw → w.mallocOk = true → w.freadOk = true →
        w.outOk = true → pipeline fw = some (Verdict.patched out) →
        main w = some ⟨0, some out⟩) := by
  refine ⟨rfl, ?_, ?_, ?_, ?_, ?_⟩
  · intro w hw
    simp only [main, hw]
  · intro w f hm
    unfold main at hm
    split at hm
    · cases hm
    · split at hm
      · split at hm
        · split at hm
          · cases hm
          · cases hm
            rfl
          · split at hm
            · cases hm
              rfl
            · cases hm
        · cases hm
          rfl
      · cases hm
  · intro w fw hw h1 h2
    simp [main, hw, h1, h2]
  · intro w fw b hw h1 h2 hp
    simp only [main, hw, h1, h2, hp, if_true]
  · intro w fw out hw h1 h2 h3 hp
    simp only [main, hw, h1, h2, h3, hp, if_true]

/-! ## The header checksum across the pipeline -/

theorem code_loop_exact_le {mem : List Byte} {data : Nat} :
    ∀ (n i csum r : Nat), code_loop_exact mem data n i csum = some r → r ≤ csum + 255 * n
  | 0, _, csum, r, h => by
    simp only [code_loop_exact, Option.some.injEq] at h
    omega
  | n + 1, i, csum, r, h => by
    simp only [code_loop_exact] at h
    cases hl : load mem data i with
    | none => simp [hl] at h
    | some b =>
      simp only [hl] at h
      have := code_loop_exact_le n (i + 1) _ r h
      have := b.isLt
      omega

theorem code_loop_eq_exact {mem : List Byte} {data : Nat} :
    ∀ (n i csum : Nat), csum + 255 * n < 2 ^ 32 →
      code_loop mem data n i csum = code_loop_exact mem data n i csum
  | 0, _, _, _ => rfl
  | n + 1, i, csum, h => by
    simp only [code_loop, code_loop_exact]
    cases load mem data i with
    | none => rfl
    | some b =>
      have hb := b.isLt
      have e : (csum + b.val) % 2 ^ 32 = csum + b.val := Nat.mod_eq_of_lt (by omega)
      simp only [e]
      exact code_loop_eq_exact n (i + 1) _ (by omega)

theorem header_loop_exact_le {mem : List Byte} {data : Nat} :
    ∀ (n i csum r : Nat), header_loop_exact mem data n i csum = some r → r ≤ csum + 255 * n
  | 0, _, csum, r, h => by
    simp only [header_loop_exact, Option.some.injEq] at h
    omega
  | n + 1, i, csum, r, h => by
    simp only [header_loop_exact] at h
    by_cases hc : i < 0x0c ∨ i > 0x0f
    · rw [if_pos hc] at h
      cases hl : load mem data i with
      | none => simp [hl] at h
      | some b =>
        simp only [hl] at h
        have := header_loop_exact_le n (i + 1) _ r h
        have := b.isLt
        omega
    · rw [if_neg hc] at h
      have := header_loop_exact_le n (i + 1) _ r h
      omega

theorem header_loop_eq_exact {mem : List Byte} {data : Nat} :
    ∀ (n i csum : Nat), csum + 255 * n < 2 ^ 32 →
      header_loop mem data n i csum = header_loop_exact mem data n i csum
  | 0, _, _, _ => rfl
  | n + 1, i, csum, h => by
    simp only [header_loop, header_loop_exact]
    by_cases hc : i < 0x0c ∨ i > 0x0f
    · rw [if_pos hc, if_pos hc]
      cases load mem data i with
      | none => rfl
      | some b =>
        have hb := b.isLt
        have e : (csum + b.val) % 2 ^ 32 = csum + b.val := Nat.mod_eq_of_lt (by omega)
        simp only [e]
        exact header_loop_eq_exact n (i + 1) _ (by omega)
    · rw [if_neg hc, if_neg hc]
      exact header_loop_eq_exact n (i + 1) _ (by omega)

theorem and_ffff (x : Nat) : x &&& 0xffff = x % 65536 := by
  have h := Nat.and_pow_two_sub_one_eq_mod x 16
  have e : (2 : Nat) ^ 16 - 1 = 0xffff := by decide
  rw [e] at h
  rw [h]

/-- C15: for every buffer and every `len ≤ 65535`, the accumulator of
`calculate_code_checksum` and of `calculate_header_checksum` after any number of iterations
is at most `65535 * 255 = 16711425 < 2 ^ 32` and equals the accumulator computed with
unbounded integers, so the 32-bit accumulator never wraps; each function equals the
unbounded sum reduced modulo 65536, and its result is at most 65535. -/
theorem no_accumulator_wraparound (mem : List Byte) (data len : Nat) (hlen : len ≤ 65535) :
    (∀ n, n ≤ len → code_loop mem data n 0 0 = code_loop_exact mem data n 0 0 ∧
      ∀ r, code_loop mem data n 0 0 = some r → r ≤ 65535 * 255) ∧
      (∀ n, n ≤ len - 2 → header_loop mem data n 2 0 = header_loop_exact mem data n 2 0 ∧
        ∀ r, header_loop mem data n 2 0 = some r → r ≤ 65535 * 255) ∧
      65535 * 255 = 16711425 ∧ 16711425 < 2 ^ 32 ∧
      calculate_code_checksum mem data len =
        (code_loop_exact mem data len 0 0).map (fun csum => csum % 65536) ∧
      calculate_header_checksum mem data len =
        (header_loop_exact mem data (len - 2) 2 0).map (fun csum => csum % 65536) ∧
      (∀ r, calculate_code_checksum mem data len = some r → r ≤ 65535) ∧
      (∀ r, calculate_header_checksum mem data len = some r → r ≤ 65535) := by
  have hc : ∀ n, n ≤ len → code_loop mem data n 0 0 = code_loop_exact mem data n 0 0 :=
    fun n hn => code_loop_eq_exact n 0 0 (by omega)
  have hh : ∀ n, n ≤ len - 2 → header_loop mem data n 2 0 = header_loop_exact mem data n 2 0 :=
    fun n hn => header_loop_eq_exact n 2 0 (by omega)
  have e1 : calculate_code_checksum mem data len =
      (code_loop_exact mem data len 0 0).map (fun csum => csum % 65536) := by
    unfold calculate_code_checksum
    rw [hc len (Nat.le_refl _)]
    simp only [and_ffff]
  have e2 : calculate_header_checksum mem data len =
      (header_loop_exact mem data (len - 2) 2 0).map (fun csum => csum % 65536) := by
    unfold calculate_header_checksum
    rw [hh (len - 2) (Nat.le_refl _)]
    simp only [and_ffff]
  refine ⟨fun n hn => ⟨hc n hn, fun r hr => ?_⟩, fun n hn => ⟨hh n hn, fun r hr => ?_⟩,
    by decide, by decide, e1, e2, fun r hr => ?_, fun r hr => ?_⟩
  · rw [hc n hn] at hr
    have := code_loop_exact_le n 0 0 r hr
    omega
  · rw [hh n hn] at hr
    have := header_loop_exact_le n 2 0 r hr
    omega
  · rw [e1] at hr
    cases hx : code_loop_exact mem data len 0 0 with
    | none => simp [hx] at hr
    | some x =>
      simp only [hx, Option.map_some', Option.some.injEq] at hr
      omega
  · rw [e2] at hr
    cases hx : header_loop_exact mem data (len - 2) 2 0 with
    | none => simp [hx] at hr
    | some x =>
      simp only [hx, Option.map_some', Option.some.injEq] at hr
      omega

theorem no_accumulator_wraparound_witness :
    (3 : Nat) ≤ 65535 ∧
      code_loop [0xff, 0xff, 0xff, 0x07] 0 3 0 0 = some 765 ∧
      code_loop_exact [0xff, 0xff, 0xff, 0x07] 0 3 0 0 = some 765 ∧
      calculate_code_checksum [0xff, 0xff, 0xff, 0x07] 0 3 = some 765 := by
  have h := no_accumulator_wraparound [0xff, 0xff, 0xff, 0x07] 0 3 (by decide)
  refine ⟨by decide, ?_, by decide, ?_⟩
  · rw [(h.1 3 (Nat.le_refl _)).1]
    decide
  · rw [h.2.2.2.2.1]
    decide

/-! ## The checksum after a store -/

theorem code_checksum_spec_eq (data : List Byte) (len : Nat) :
    code_checksum_spec data len = byte_sum data len % 65536 :=
  rfl

theorem byteAt_le (data : List Byte) (i : Nat) : byteAt data i ≤ 255 := by
  have := (data.getD i 0).isLt
  unfold byteAt
  omega

theorem byteAt_of_get {mem : List Byte} {base i : Nat} {b : Byte}
    (h : mem[base + i]? = some b) : byteAt (mem.drop base) i = b.val := by
  simp [byteAt_drop, List.getD_eq_getElem?_getD, h]

/-- Changing a function at one point changes its sum over a range containing the point by
the difference at that point. -/
theorem sum_range_update (f g : Nat → Nat) (off : Nat) :
    ∀ len, off < len → (∀ k, k ≠ off → g k = f k) →
      ((List.range len).map g).sum + f off = ((List.range len).map f).sum + g off
  | 0, h, _ => by omega
  | n + 1, h, hk => by
    rw [List.range_succ, List.map_append, List.map_append, List.sum_append, List.sum_append]
    simp only [List.map_cons, List.map_nil, List.sum_cons, List.sum_nil, Nat.add_zero]
    rcases Nat.lt_or_ge off n with hlt | hge
    · have ih := sum_range_update f g off n hlt hk
      have := hk n (by omega)
      omega
    · have e : off = n := by omega
      have hm : (List.range n).map g = (List.range n).map f :=
        List.map_congr_left (fun k hkm => hk k (by
          have := List.mem_range.mp hkm
          omega))
      rw [hm, e]
      omega

theorem byteAt_drop_set {mem : List Byte} {base off : Nat} (b : Byte)
    (h : base + off < mem.length) (k : Nat) :
    byteAt ((mem.set (base + off) b).drop base) k =
      if k = off then b.val else byteAt (mem.drop base) k := by
  rw [byteAt_drop, byteAt_drop, List.getD_eq_getElem?_getD, List.getD_eq_getElem?_getD,
    List.getElem?_set]
  by_cases hk : k = off
  · rw [if_pos hk, hk, if_pos rfl, if_pos h]
    rfl
  · rw [if_neg hk, if_neg (by omega)]

/-- One store inside the region moves the sum of the region by the difference between the
new byte and the old one. -/
theorem byte_sum_set {mem : List Byte} {base off len : Nat} (b : Byte) (hoff : off < len)
    (hsize : base + len ≤ mem.length) :
    byte_sum ((mem.set (base + off) b).drop base) len + byteAt (mem.drop base) off =
      byte_sum (mem.drop base) len + b.val := by
  have h := sum_range_update (byteAt (mem.drop base))
    (byteAt ((mem.set (base + off) b).drop base)) off len hoff (fun k hk => by
      rw [byteAt_drop_set b (by omega), if_neg hk])
  rw [byteAt_drop_set b (by omega), if_pos rfl] at h
  exact h

/-- The stores of a table without repeated offsets, all inside the region, move the sum of
the region from the sum of the old bytes at the offsets to the sum of the table bytes. -/
theorem byte_sum_apply_table {base len : Nat} :
    ∀ (t : List (Nat × Byte)) (mem : List Byte), (t.map Prod.fst).Nodup →
      (∀ e ∈ t, e.1 < len) → base + len ≤ mem.length →
      byte_sum ((apply_table mem base t).drop base) len +
          (t.map (fun e => byteAt (mem.drop base) e.1)).sum =
        byte_sum (mem.drop base) len + (t.map (fun e => e.2.val)).sum
  | [], _, _, _, _ => rfl
  | (off, b) :: rest, mem, hn, hin, hsize => by
    simp only [List.map_cons, List.nodup_cons] at hn
    have hoff : off < len := hin (off, b) (List.mem_cons_self _ _)
    have ih := byte_sum_apply_table rest (mem.set (base + off) b) hn.2
      (fun e he => hin e (List.mem_cons_of_mem _ he)) (by rw [List.length_set]; exact hsize)
    have hm : rest.map (fun e => byteAt ((mem.set (base + off) b).drop base) e.1) =
        rest.map (fun e => byteAt (mem.drop base) e.1) :=
      List.map_congr_left (fun e he => by
        have hne : e.1 ≠ off := fun heq => hn.1 (heq ▸ List.mem_map_of_mem Prod.fst he)
        rw [byteAt_drop_set b (by omega), if_neg hne])
    rw [hm] at ih
    have hs := @byte_sum_set mem base off len b hoff hsize
    simp only [apply_table, List.map_cons, List.sum_cons]
    omega

theorem patched_bytes_sum_eq (mem : List Byte) (base : Nat) :
    patched_bytes_sum mem base =
      (patch_table.map (fun e => byteAt (mem.drop base) e.1)).sum := by
  simp only [patched_bytes_sum, patch_offsets, List.map_map]
  rfl

theorem replacement_sum_eq : replacement_sum = 936 := by
  decide

theorem patched_bytes_sum_le (mem : List Byte) (base : Nat) :
    patched_bytes_sum mem base ≤ 3315 := by
  have h := byteAt_le (mem.drop base)
  have h1 := h 0x9604
  have h2 := h 0x9605
  have h3 := h 0x960d
  have h4 := h 0x960e
  have h5 := h 0xbe90
  have h6 := h 0xbe91
  have h7 := h 0xbee8
  have h8 := h 0x937e
  have h9 := h 0x937f
  have h10 := h 0x9380
  have h11 := h 0x9399
  have h12 := h 0x939a
  have h13 := h 0x939b
  simp only [patched_bytes_sum, patch_offsets, patch_table, List.map_cons, List.map_nil,
    List.sum_cons, List.sum_nil]
  omega

/-- The sum of the patched region against the sum of the region before the patch. -/
theorem byte_sum_patched {mem : List Byte} {base len : Nat} (hoff : 0xbee8 < len)
    (hsize : base + len ≤ mem.length) :
    byte_sum ((apply_table mem base patch_table).drop base) len + patched_bytes_sum mem base =
      byte_sum (mem.drop base) len + 936 := by
  have h := @byte_sum_apply_table base len patch_table mem patch_offsets_nodup
    (fun e he => by
      have := patch_offsets_le e.1 (mem_patch_offsets he)
      omega) hsize
  rw [← patched_bytes_sum_eq] at h
  have e : (patch_table.map (fun e => e.2.val)).sum = 936 := replacement_sum_eq
  rw [e] at h
  exact h

/-! ## The checksum delta of the patch -/

/-- C16: for every code region of length `len > 0xbee8` inside the buffer (for every
16-bit `len` in particular), the patch succeeds and the code checksum of the patched region is
`(c + 936 - S) mod 65536`, where `c` is the checksum before the patch, 936 the sum of the 13
replacement bytes and `S` the sum of the 13 original bytes at the patched offsets; the
patched checksum differs from the original exactly when `S ≠ 936`. -/
theorem checksum_delta (mem : List Byte) (base len : Nat) (hoff : 0xbee8 < len)
    (hsize : base + len ≤ mem.length) :
    ∃ out c d, patch_firmware mem base = some out ∧
      calculate_code_checksum mem base len = some c ∧
      calculate_code_checksum out base len = some d ∧ replacement_sum = 936 ∧
      (d : Int) = ((c : Int) + 936 - (patched_bytes_sum mem base : Int)) % 65536 ∧
      (d ≠ c ↔ patched_bytes_sum mem base ≠ 936) := by
  have hs := @byte_sum_patched mem base len hoff hsize
  have hle := patched_bytes_sum_le mem base
  refine ⟨apply_table mem base patch_table, code_checksum_spec (mem.drop base) len,
    code_checksum_spec ((apply_table mem base patch_table).drop base) len,
    patch_firmware_some (by omega), calculate_code_checksum_eq hsize,
    calculate_code_checksum_eq (by rw [apply_table_length]; exact hsize), replacement_sum_eq,
    ?_, ?_⟩
  · rw [code_checksum_spec_eq, code_checksum_spec_eq]
    omega
  · rw [code_checksum_spec_eq, code_checksum_spec_eq]
    omega

theorem checksum_delta_witness :
    0xbee8 < 0xbee9 ∧ CODE_OFFSET + 0xbee9 ≤ fw_good.length ∧
      ∃ out c d, patch_firmware fw_good CODE_OFFSET = some out ∧
        calculate_code_checksum fw_good CODE_OFFSET 0xbee9 = some c ∧
        calculate_code_checksum out CODE_OFFSET 0xbee9 = some d ∧ replacement_sum = 936 ∧
        (d : Int) = ((c : Int) + 936 - (patched_bytes_sum fw_good CODE_OFFSET : Int)) % 65536 ∧
        (d ≠ c ↔ patched_bytes_sum fw_good CODE_OFFSET ≠ 936) := by
  have hs : CODE_OFFSET + 0xbee9 ≤ fw_good.length := by
    rw [fw_good_length]
    decide
  exact ⟨by decide, hs, checksum_delta fw_good CODE_OFFSET 0xbee9 (by decide) hs⟩

/-! ## One changed byte -/

/-- C17: changing one byte at an index in `[0, len)` of the region to a different value
moves the sum of the region by the difference of the two bytes (not zero, at most 255 in
absolute value) and so changes `calculate_code_checksum`; an image that differs in exactly
one code byte from an image passing the gate is rejected at the gate. -/
theorem single_byte_sensitivity (mem : List Byte) (base len i : Nat) (b old : Byte)
    (hi : i < len) (hsize : base + len ≤ mem.length) (hold : mem[base + i]? = some old)
    (hne : b ≠ old) :
    (∃ c d, calculate_code_checksum mem base len = some c ∧
      calculate_code_checksum (mem.set (base + i) b) base len = some d ∧ d ≠ c ∧
      byte_sum ((mem.set (base + i) b).drop base) len + old.val =
        byte_sum (mem.drop base) len + b.val ∧
      b.val ≠ old.val ∧ b.val ≤ 255 ∧ old.val ≤ 255) ∧
      (base = CODE_OFFSET → code_len mem = some len → CODE_OFFSET + len + 4 ≤ mem.length →
        calculate_code_checksum mem CODE_OFFSET len = some CODE_CHECKSUM →
        pipeline (mem.set (CODE_OFFSET + i) b) =
          some (Verdict.rejected (mem.set (CODE_OFFSET + i) b))) := by
  have hs := @byte_sum_set mem base i len b hi hsize
  rw [byteAt_of_get hold] at hs
  have hv : b.val ≠ old.val := fun e => hne (Fin.ext e)
  have hb := b.isLt
  have ho := old.isLt
  have hd : code_checksum_spec ((mem.set (base + i) b).drop base) len ≠
      code_checksum_spec (mem.drop base) len := by
    rw [code_checksum_spec_eq, code_checksum_spec_eq]
    omega
  have hc2 := @calculate_code_checksum_eq (mem.set (base + i) b) base len
    (by rw [List.length_set]; exact hsize)
  refine ⟨⟨_, _, calculate_code_checksum_eq hsize, hc2, hd, hs, hv, by omega, by omega⟩, ?_⟩
  intro hbase hlen hsz hgate
  subst hbase
  have hfront : ∀ j, j < CODE_OFFSET → (mem.set (CODE_OFFSET + i) b)[j]? = mem[j]? :=
    fun j hj => List.getElem?_set_ne (by omega)
  have hlen2 : code_len (mem.set (CODE_OFFSET + i) b) = some len := by
    rw [← hlen]
    exact code_len_congr (hfront 2 (by decide)) (hfront 3 (by decide))
  rw [calculate_code_checksum_eq hsize] at hgate
  refine pipeline_rejected_of_gate hlen2 (by rw [List.length_set]; exact hsz) hc2 ?_
  intro e
  exact hd (by rw [e, Option.some.inj hgate])

theorem sample_fw_get_code (hi lo : Byte) (n : Nat) (tail : List Byte) :
    (sample_fw hi lo n tail)[CODE_OFFSET + 0]? = some 0xff := by
  simp [sample_fw, sample_header, sample_code, CODE_OFFSET]

theorem single_byte_sensitivity_witness :
    (0 : Nat) < 0xbee9 ∧ CODE_OFFSET + 0xbee9 ≤ fw_good.length ∧
      fw_good[CODE_OFFSET + 0]? = some 0xff ∧ (0xfe : Byte) ≠ 0xff ∧
      (∃ c d, calculate_code_checksum fw_good CODE_OFFSET 0xbee9 = some c ∧
        calculate_code_checksum (fw_good.set (CODE_OFFSET + 0) 0xfe) CODE_OFFSET 0xbee9 =
          some d ∧ d ≠ c) ∧
      pipeline (fw_good.set (CODE_OFFSET + 0) 0xfe) =
        some (Verdict.rejected (fw_good.set (CODE_OFFSET + 0) 0xfe)) := by
  have hs : CODE_OFFSET + 0xbee9 ≤ fw_good.length := by
    rw [fw_good_length]
    decide
  have hold : fw_good[CODE_OFFSET + 0]? = some 0xff :=
    sample_fw_get_code 0xbe 0xe9 48863 [0, 0, 0, 0]
  have h := single_byte_sensitivity fw_good CODE_OFFSET 0xbee9 0 0xfe 0xff (by decide) hs hold
    (by decide)
  obtain ⟨c, d, h1, h2, h3, -⟩ := h.1
  exact ⟨by decide, hs, hold, by decide, ⟨c, d, h1, h2, h3⟩,
    h.2 rfl fw_good_code_len fw_good_size fw_good_gate⟩

/-! ## Order and repetition of the stores -/

/-- The table leaves a buffer as it is exactly when the buffer already holds the bytes of
the table. -/
theorem apply_table_eq_self_iff {mem : List Byte} {base : Nat} {t : List (Nat × Byte)}
    (hn : (t.map Prod.fst).Nodup) (hb : ∀ e ∈ t, base + e.1 < mem.length) :
    apply_table mem base t = mem ↔ ∀ e ∈ t, mem[base + e.1]? = some e.2 := by
  constructor
  · intro h e he
    have hg := apply_table_get_entry base t mem e.1 e.2 hn he (hb e he)
    rw [h] at hg
    exact hg
  · intro h
    apply List.ext_getElem?
    intro j
    by_cases hj : ∃ e ∈ t, j = base + e.1
    · obtain ⟨e, he, heq⟩ := hj
      rw [heq, apply_table_get_entry base t mem e.1 e.2 hn he (hb e he), h e he]
    · exact apply_table_get_other base t mem j (fun e he heq => hj ⟨e, he, heq⟩)

theorem apply_table_idem {mem : List Byte} {base : Nat} {t : List (Nat × Byte)}
    (hn : (t.map Prod.fst).Nodup) (hb : ∀ e ∈ t, base + e.1 < mem.length) :
    apply_table (apply_table mem base t) base t = apply_table mem base t :=
  (apply_table_eq_self_iff hn (fun e he => by rw [apply_table_length]; exact hb e he)).mpr
    (fun e he => apply_table_get_entry base t mem e.1 e.2 hn he (hb e he))

/-- Tables that are permutations of each other, without repeated offsets, give the same
buffer. -/
theorem apply_table_perm {mem : List Byte} {base : Nat} {t1 t2 : List (Nat × Byte)}
    (hp : t1.Perm t2) (hn : (t2.map Prod.fst).Nodup) (hb : ∀ e ∈ t2, base + e.1 < mem.length) :
    apply_table mem base t1 = apply_table mem base t2 := by
  have hn1 : (t1.map Prod.fst).Nodup := ((hp.map Prod.fst).nodup_iff).mpr hn
  apply List.ext_getElem?
  intro j
  by_cases hj : ∃ e ∈ t2, j = base + e.1
  · obtain ⟨e, he, heq⟩ := hj
    rw [heq, apply_table_get_entry base t2 mem e.1 e.2 hn he (hb e he),
      apply_table_get_entry base t1 mem e.1 e.2 hn1 (hp.mem_iff.mpr he) (hb e he)]
  · rw [apply_table_get_other base t2 mem j (fun e he heq => hj ⟨e, he, heq⟩),
      apply_table_get_other base t1 mem j (fun e he heq => hj ⟨e, hp.mem_iff.mp he, heq⟩)]

theorem ofNat_val_self (b : Byte) : (Fin.ofNat b.val : Byte) = b := by
  apply Fin.ext
  rw [ofNat_val]
  exact Nat.mod_eq_of_lt b.isLt

/-- With every offset in bounds the checked stores give the table applied. -/
theorem apply_stores_eq {base : Nat} :
    ∀ (t : List (Nat × Byte)) (mem : List Byte), (∀ e ∈ t, base + e.1 < mem.length) →
      apply_stores mem base t = some (apply_table mem base t)
  | [], _, _ => rfl
  | (off, b) :: rest, mem, h => by
    have h0 : base + off < mem.length := h (off, b) (List.mem_cons_self _ _)
    simp only [apply_stores, apply_table, store_eq_some h0, ofNat_val_self]
    exact apply_stores_eq rest _ (fun e he => by
      rw [List.length_set]
      exact h e (List.mem_cons_of_mem _ he))

theorem patch_edits_flatten : patch_edits.flatten = patch_table := by
  decide

theorem patch_firmware_eq_apply_stores {mem : List Byte} {code : Nat}
    (h : code + 0xbee8 < mem.length) :
    patch_firmware mem code = apply_stores mem code patch_table := by
  rw [patch_firmware_some h, apply_stores_eq patch_table mem (fun e he => by
    have := patch_offsets_le e.1 (mem_patch_offsets he)
    omega)]

/-- C18: on a code region that contains all patch offsets, `patch_firmware` applied twice
gives what it gives applied once; the 13 written offsets are pairwise distinct, so the
stores in any order, and the six edits in any order, give the same result; and
`patch_firmware` leaves the region unchanged exactly when it already holds the 13
replacement bytes. -/
theorem patch_firmware_idempotent (mem : List Byte) (code : Nat)
    (h : code + 0xbee8 < mem.length) :
    ∃ out, patch_firmware mem code = some out ∧ patch_firmware out code = some out ∧
      patch_offsets.Nodup ∧ patch_offsets.length = 13 ∧
      patch_firmware mem code = apply_stores mem code patch_table ∧
      (∀ t : List (Nat × Byte), t.Perm patch_table → apply_stores mem code t = some out) ∧
      (∀ es : List (List (Nat × Byte)), es.Perm patch_edits →
        apply_stores mem code es.flatten = some out) ∧
      (out = mem ↔ ∀ e ∈ patch_table, mem[code + e.1]? = some e.2) := by
  have hb : ∀ e ∈ patch_table, code + e.1 < mem.length := fun e he => by
    have := patch_offsets_le e.1 (mem_patch_offsets he)
    omega
  have hperm : ∀ t : List (Nat × Byte), t.Perm patch_table →
      apply_stores mem code t = some (apply_table mem code patch_table) := fun t hp => by
    rw [apply_stores_eq t mem (fun e he => hb e (hp.mem_iff.mp he)),
      apply_table_perm hp patch_offsets_nodup hb]
  refine ⟨apply_table mem code patch_table, patch_firmware_some h, ?_, patch_offsets_nodup,
    by decide, patch_firmware_eq_apply_stores h, hperm, ?_,
    apply_table_eq_self_iff patch_offsets_nodup hb⟩
  · rw [patch_firmware_some (by rw [apply_table_length]; exact h),
      apply_table_idem patch_offsets_nodup hb]
  · intro es hp
    apply hperm
    have := hp.flatten
    rw [patch_edits_flatten] at this
    exact this

theorem patch_firmware_idempotent_witness :
    CODE_OFFSET + 0xbee8 < fw_good.length ∧
      ∃ out, patch_firmware fw_good CODE_OFFSET = some out ∧
        patch_firmware out CODE_OFFSET = some out ∧
        apply_stores fw_good CODE_OFFSET patch_table.reverse = some out := by
  obtain ⟨out, h1, h2, -, -, -, h3, -⟩ :=
    patch_firmware_idempotent fw_good CODE_OFFSET fw_good_bound
  exact ⟨fw_good_bound, out, h1, h2, h3 _ (List.reverse_perm _)⟩

/-! ## The checksum after the round trip -/

theorem byteAt_zero_tail (front : List Byte) (n k : Nat) (hk : front.length ≤ k) :
    byteAt (front ++ List.replicate n 0) k = 0 := by
  unfold byteAt
  rw [List.getD_eq_getElem?_getD, List.getElem?_append_right hk, List.getElem?_replicate]
  split <;> rfl

theorem patched_bytes_sum_zero (front : List Byte) (n : Nat) (hf : front.length ≤ 0x937e) :
    patched_bytes_sum (front ++ List.replicate n 0) 0 = 0 := by
  unfold patched_bytes_sum
  rw [List.drop_zero]
  have hm : patch_offsets.map (byteAt (front ++ List.replicate n 0)) =
      patch_offsets.map (fun _ => 0) :=
    List.map_congr_left (fun off ho => byteAt_zero_tail front n off (by
      have := patch_offsets_ge off ho
      omega))
  rw [hm]
  decide

theorem byte_sum_full (data : List Byte) (len : Nat) (h : data.length ≤ len) :
    byte_sum data len = (data.map Fin.val).sum := by
  rw [byte_sum, range_sum_eq_take_sum, List.take_of_length_le h]

theorem code_blank_length : code_blank.length = 0xbee9 := by
  simp only [code_blank, List.length_append, List.length_replicate, List.length_cons,
    List.length_nil]

theorem code_blank_sum : byte_sum code_blank 0xbee9 = 1587 := by
  rw [byte_sum_full code_blank 0xbee9 (Nat.le_of_eq code_blank_length)]
  simp only [code_blank, List.map_append, List.sum_append, List.map_replicate,
    List.sum_replicate, List.map_cons, List.map_nil, List.sum_cons, List.sum_nil, smul_eq_mul]
  rfl

theorem code_prepatched_length : code_prepatched.length = 0xbee9 := by
  rw [code_prepatched, apply_table_length, code_blank_length]

theorem code_prepatched_checksum :
    calculate_code_checksum code_prepatched 0 0xbee9 = some CODE_CHECKSUM := by
  have hsize : 0 + 0xbee9 ≤ code_blank.length := by
    rw [code_blank_length]
  have hs := @byte_sum_patched code_blank 0 0xbee9 (by decide) hsize
  have hz : patched_bytes_sum code_blank 0 = 0 :=
    patched_bytes_sum_zero (List.replicate 6 0xff ++ [0x39]) 48866 (by decide)
  rw [hz, List.drop_zero, List.drop_zero, code_blank_sum, Nat.add_zero] at hs
  rw [calculate_code_checksum_eq (by rw [code_prepatched_length]), code_checksum_spec_eq,
    code_prepatched, List.drop_zero, hs]
  rfl

/-- C11, as stated, fails: the code region `code_prepatched` of `0xbee9` bytes has code
checksum `CODE_CHECKSUM` and already holds the 13 replacement bytes; `patch_firmware` leaves
it as it is, and the checksum recomputed over the patched region is `CODE_CHECKSUM` again. -/
theorem roundtrip_checksum_unchanged :
    code_prepatched.length = 0xbee9 ∧ (∀ off ∈ patch_offsets, off < 0xbee9) ∧
      calculate_code_checksum code_prepatched 0 0xbee9 = some CODE_CHECKSUM ∧
      ∃ out, patch_firmware code_prepatched 0 = some out ∧
        calculate_code_checksum out 0 0xbee9 = some CODE_CHECKSUM := by
  have hb : ∀ e ∈ patch_table, 0 + e.1 < code_blank.length := fun e he => by
    have := patch_offsets_le e.1 (mem_patch_offsets he)
    rw [code_blank_length]
    omega
  have hp : patch_firmware code_prepatched 0 = some code_prepatched := by
    rw [patch_firmware_some (by rw [code_prepatched_length]; decide), code_prepatched,
      apply_table_idem patch_offsets_nodup hb]
  exact ⟨code_prepatched_length, by decide, code_prepatched_checksum, code_prepatched, hp,
    code_prepatched_checksum⟩

/-- C11, amended: for every code region inside the buffer with code checksum
`CODE_CHECKSUM` and length `len > 0xbee8`, `patch_firmware` succeeds, and the checksum
recomputed over the same length differs from `CODE_CHECKSUM` exactly when the 13 original
bytes at the patched offsets do not add up to 936, the sum of the 13 replacement bytes. -/
theorem roundtrip_checksum (mem : List Byte) (base len : Nat) (hoff : 0xbee8 < len)
    (hsize : base + len ≤ mem.length)
    (hgate : calculate_code_checksum mem base len = some CODE_CHECKSUM) :
    ∃ out d, patch_firmware mem base = some out ∧
      calculate_code_checksum out base len = some d ∧ replacement_sum = 936 ∧
      (d ≠ CODE_CHECKSUM ↔ patched_bytes_sum mem base ≠ 936) := by
  have hs := @byte_sum_patched mem base len hoff hsize
  have hle := patched_bytes_sum_le mem base
  rw [calculate_code_checksum_eq hsize, code_checksum_spec_eq] at hgate
  have hg := Option.some.inj hgate
  refine ⟨apply_table mem base patch_table,
    code_checksum_spec ((apply_table mem base patch_table).drop base) len,
    patch_firmware_some (by omega),
    calculate_code_checksum_eq (by rw [apply_table_length]; exact hsize), replacement_sum_eq,
    ?_⟩
  rw [code_checksum_spec_eq, ← hg]
  omega

theorem sample_code_checksum :
    calculate_code_checksum (sample_code 48863) 0 0xbee9 = some CODE_CHECKSUM := by
  have hl : (sample_code 48863).length = 0xbee9 := sample_code_length 48863
  rw [calculate_code_checksum_eq (by rw [hl]), code_checksum_spec_eq, List.drop_zero,
    byte_sum_full _ _ (Nat.le_of_eq hl), sample_code_sum]
  rfl

theorem roundtrip_checksum_witness :
    0xbee8 < 0xbee9 ∧ 0 + 0xbee9 ≤ (sample_code 48863).length ∧
      calculate_code_checksum (sample_code 48863) 0 0xbee9 = some CODE_CHECKSUM ∧
      ∃ out d, patch_firmware (sample_code 48863) 0 = some out ∧
        calculate_code_checksum out 0 0xbee9 = some d ∧ d ≠ CODE_CHECKSUM := by
  have hl : 0 + 0xbee9 ≤ (sample_code 48863).length := by
    rw [sample_code_length]
  have hz : patched_bytes_sum (sample_code 48863) 0 = 0 :=
    patched_bytes_sum_zero (List.replicate 9 0xff ++ [0xe4]) 48863 (by decide)
  obtain ⟨out, d, h1, h2, -, h3⟩ :=
    roundtrip_checksum (sample_code 48863) 0 0xbee9 (by decide) hl sample_code_checksum
  exact ⟨by decide, hl, sample_code_checksum, out, d, h1, h2, h3.mpr (by rw [hz]; decide)⟩

end MS2130
